import Mathlib

/-!
# Data__Structures

Shallow embeddings of the weighted undirected graph, the binary search tree, the
AVL tree, the string exercises and the directed graph of the repository; all
definitions come first, the lemmas and the claims follow.

## The weighted undirected graph

A shallow embedding of `non_linear_data_structures/WeightedGraph.cpp`.

* A `std::map<K, V>` is a list of key/value pairs held in strictly increasing
  key order; `mapInsert` and `lowerBound` follow `std::map::insert` and
  `std::map::lower_bound` on that representation.
* A `Node*` is the address of the node object, a natural number. The address
  produced by `new Node{label}` is an argument of `addNode`. The `label` member
  of a node object is read by `print` only, which is not part of the model.
* The `int` weight is an integer; it is stored as given, with no arithmetic.
* `std::list<Edge*>` is the list of the edge objects pointed to, in list order
  (an edge object is never written after its construction).
* An operation returns the `Status` of the call together with the state it
  leaves behind, so that the state at the point of a `throw` is visible.
-/

namespace WeightedGraph

/-- Modelled from the spec: `Edge.h` is not among the sources. An edge is the
ordered pair (from-node, to-node) plus an integer weight, built in `addEdge`
as `new Edge{from, to, weight}`. -/
structure Edge where
  from_ : Nat
  to_ : Nat
  weight : Int
  deriving DecidableEq

/-- How a call ended: normally, by `throw std::runtime_error{"Invalid argument"}`,
or by dereferencing an `end()` iterator (undefined behaviour in C++). -/
inductive Status where
  | ok
  | invalidArgument
  | undefinedBehaviour
  deriving DecidableEq

/-- Models `std::map::insert(std::make_pair(k, v))`: the pair is placed at its position
in key order, and nothing happens when an equivalent key is already there. -/
def mapInsert {K V : Type} [LinearOrder K] : List (K × V) → K → V → List (K × V)
  | [], k, v => [(k, v)]
  | (k', v') :: rest, k, v =>
    if k < k' then (k, v) :: (k', v') :: rest
    else if k' < k then (k', v') :: mapInsert rest k v
    else (k', v') :: rest

/-- Models `std::map::lower_bound(k)`: the first entry whose key is not less than `k`;
`none` stands for the `end()` iterator. -/
def lowerBound {K V : Type} [LinearOrder K] : List (K × V) → K → Option (K × V)
  | [], _ => none
  | (k', v') :: rest, k => if k' < k then lowerBound rest k else some (k', v')

/-- Models `m->lower_bound(k)->second->push_back(e)`: the element `e` is appended to the
list held by the first entry whose key is not less than `k`; `none` when
`lower_bound` returns `end()`, whose dereference is undefined. -/
def lowerBoundPushBack {K E : Type} [LinearOrder K] :
    List (K × List E) → K → E → Option (List (K × List E))
  | [], _, _ => none
  | (k', l) :: rest, k, e =>
    if k' < k then (lowerBoundPushBack rest k e).map (fun r => (k', l) :: r)
    else some ((k', l ++ [e]) :: rest)

/-- The keys of a map, in iteration order. -/
def keys {K V : Type} (m : List (K × V)) : List K := m.map Prod.fst

/-- The mapped values of a map, in iteration order. -/
def values {K V : Type} (m : List (K × V)) : List V := m.map Prod.snd

/-- The value stored under exactly the key `k`, if there is one. -/
def mapFind {K V : Type} [DecidableEq K] : List (K × V) → K → Option V
  | [], _ => none
  | (k', v') :: rest, k => if k' = k then some v' else mapFind rest k

/-- The representation invariant of `std::map`: keys strictly increasing. -/
def Sorted {K V : Type} [LinearOrder K] (m : List (K × V)) : Prop :=
  List.Pairwise (fun a b => a < b) (keys m)

instance {K V : Type} [LinearOrder K] (m : List (K × V)) : Decidable (Sorted m) := by
  unfold Sorted; infer_instance

end WeightedGraph

/-- The members of `WeightedGraph<T>`: `vertices`, the node registry
`std::map<T, Node*>`, and `adjacencyList`, the adjacency store
`std::map<Node*, std::list<Edge*>*>`. -/
structure WeightedGraph (T : Type) where
  vertices : List (T × Nat)
  adjacencyList : List (Nat × List WeightedGraph.Edge)
  deriving DecidableEq

namespace WeightedGraph

variable {T : Type} [LinearOrder T]

/-- The constructor `WeightedGraph()`: two empty maps. -/
def empty : WeightedGraph T := ⟨[], []⟩

/-- Models `WeightedGraph::addNode(label)`, where `node` is the address returned by
`new Node{label}`. Both `insert` calls run unconditionally and nothing is thrown. -/
def addNode (g : WeightedGraph T) (label : T) (node : Nat) : Status × WeightedGraph T :=
  let vertices := mapInsert g.vertices label node
  let adjacencyList := mapInsert g.adjacencyList node []
  (Status.ok, ⟨vertices, adjacencyList⟩)

/-- Models `WeightedGraph::getNode(label)`: `vertices->lower_bound(label)`. -/
def getNode (g : WeightedGraph T) (label : T) : Option (T × Nat) :=
  lowerBound g.vertices label

/-- Models `WeightedGraph::addEdge(from, to, weight)`: both lookups, the `end()` test
with its `throw`, then the two `push_back` calls in source order. -/
def addEdge (g : WeightedGraph T) (from_ to_ : T) (weight : Int) :
    Status × WeightedGraph T :=
  match getNode g from_, getNode g to_ with
  | some fromPair, some toPair =>
    let fromToEdge : Edge := ⟨fromPair.2, toPair.2, weight⟩
    let toFromEdge : Edge := ⟨toPair.2, fromPair.2, weight⟩
    match lowerBoundPushBack g.adjacencyList fromPair.2 fromToEdge with
    | none => (Status.undefinedBehaviour, g)
    | some adj1 =>
      match lowerBoundPushBack adj1 toPair.2 toFromEdge with
      | none => (Status.undefinedBehaviour, ⟨g.vertices, adj1⟩)
      | some adj2 => (Status.ok, ⟨g.vertices, adj2⟩)
  | _, _ => (Status.invalidArgument, g)

/-- The adjacency list of node `n`: the list stored under key `n`, empty when
`n` is not a key of the adjacency store. -/
def adjOf (g : WeightedGraph T) (n : Nat) : List Edge :=
  (mapFind g.adjacencyList n).getD []

/-- A node address is fresh for a graph when no pointer stored in the graph
equals it: `new` never returns the address of a live object, and no node is
ever deleted. -/
def Fresh (g : WeightedGraph T) (node : Nat) : Prop :=
  node ∉ keys g.adjacencyList ∧ node ∉ values g.vertices ∧
    ∀ p ∈ g.adjacencyList, ∀ e ∈ p.2, e.from_ ≠ node ∧ e.to_ ≠ node

/-- The states reachable from the empty graph by `addNode` and `addEdge` calls. -/
inductive Reachable : WeightedGraph T → Prop where
  | empty : Reachable empty
  | addNode (g : WeightedGraph T) (label : T) (node : Nat) :
      Reachable g → Fresh g node → Reachable (addNode g label node).2
  | addEdge (g : WeightedGraph T) (from_ to_ : T) (weight : Int) :
      Reachable g → Reachable (addEdge g from_ to_ weight).2

/-- The state after a sequence of `addNode` calls, each given as the label and
the address its `new Node` returned. -/
def addNodes (g : WeightedGraph T) : List (T × Nat) → WeightedGraph T
  | [] => g
  | (label, node) :: rest => addNodes (addNode g label node).2 rest

/-- The adjacency store with `e` appended to the list stored under exactly the
key `k`: what the `push_back` of `addEdge` amounts to when `k` is a key. -/
def pushAt {K E : Type} [DecidableEq K] (m : List (K × List E)) (k : K) (e : E) :
    List (K × List E) :=
  m.map (fun p => if p.1 = k then (p.1, p.2 ++ [e]) else p)

/-- The structural invariant of a graph state: both maps are in key order,
every node of the registry is a key of the adjacency store, and every stored
edge starts at the node owning its list and joins nodes of the registry. -/
structure Inv (g : WeightedGraph T) : Prop where
  sortedV : Sorted g.vertices
  sortedA : Sorted g.adjacencyList
  regInAdj : ∀ n ∈ values g.vertices, n ∈ keys g.adjacencyList
  edges : ∀ p ∈ g.adjacencyList, ∀ e ∈ p.2,
    e.from_ = p.1 ∧ e.from_ ∈ values g.vertices ∧ e.to_ ∈ values g.vertices

instance (g : WeightedGraph T) (node : Nat) : Decidable (Fresh g node) := by
  unfold Fresh; infer_instance

/-- A graph with one node: `addNode(1)`, the node allocated at address 100. -/
def oneNode : WeightedGraph Nat := (addNode empty 1 100).2

/-- A graph with two nodes: `addNode(1); addNode(2)`, the nodes allocated at
addresses 100 and 200. -/
def twoNodes : WeightedGraph Nat := (addNode oneNode 2 200).2

/-- The two-node graph after `addEdge(1, 2, 7)`. -/
def oneEdge : WeightedGraph Nat := (addEdge twoNodes 1 2 7).2

/-- A call on the graph: `addNode(label)` together with the address its
`new Node{label}` returned, or `addEdge(from, to, weight)`. -/
inductive Call (T : Type) where
  | addNode (label : T) (node : Nat)
  | addEdge (from_ to_ : T) (weight : Int)

/-- The state a call leaves behind, whatever its status. -/
def step (g : WeightedGraph T) : Call T → WeightedGraph T
  | Call.addNode label node => (addNode g label node).2
  | Call.addEdge from_ to_ weight => (addEdge g from_ to_ weight).2

/-- The state after a sequence of calls, made in list order. -/
def run (g : WeightedGraph T) : List (Call T) → WeightedGraph T
  | [] => g
  | c :: rest => run (step g c) rest

/-- Modelled from the spec: `Path.cpp` is not among the sources. A path is the
ordered sequence of labels from source to target plus the total accumulated
weight. -/
structure Path (T : Type) where
  labels : List T
  total : Int
  deriving DecidableEq

/-- How `getShortestDistance` ended: with a path, with an error of the spec
(UnknownNodeError, NoPathError), or with the iteration budget of the model used
up. -/
inductive PathResult (T : Type) where
  | ok (path : Path T)
  | unknownNodeError
  | noPathError
  | outOfFuel
  deriving DecidableEq

/-- Modelled from the spec: the body of `getShortestDistance` is not among the
sources. The state of the search: the distance map (a node without entry is at
distance +infinity), the predecessor map, the priority frontier in insertion
order, and the settled nodes. -/
structure Search where
  distance : List (Nat × Int)
  previous : List (Nat × Nat)
  frontier : List (Int × Nat)
  settled : List Nat
  deriving DecidableEq

/-- Modelled from the spec: assignment `m[k] = v` on a map held as a list. -/
def mapSet {K V : Type} [DecidableEq K] (m : List (K × V)) (k : K) (v : V) : List (K × V) :=
  (k, v) :: m.filter (fun p => decide (p.1 ≠ k))

/-- Modelled from the spec: the entry of least priority in the frontier, the
earliest inserted one among equals (ties broken by insertion order). -/
def minEntry : List (Int × Nat) → Option (Int × Nat)
  | [] => none
  | e :: rest =>
    match minEntry rest with
    | none => some e
    | some m => if m.1 < e.1 then some m else some e

/-- Modelled from the spec: extraction of the minimum-distance entry from the
frontier; `none` when the frontier is empty. -/
def extractMin (frontier : List (Int × Nat)) : Option ((Int × Nat) × List (Int × Nat)) :=
  match minEntry frontier with
  | none => none
  | some e => some (e, frontier.erase e)

/-- Modelled from the spec: relaxation of one incident edge (current, neighbor,
weight): if `distance[current] + weight < distance[neighbor]`, update
`distance[neighbor]` and `previous[neighbor] = current`, and re-insert the
neighbor into the frontier. -/
def relax (current : Nat) (s : Search) (e : Edge) : Search :=
  match mapFind s.distance current with
  | none => s
  | some dc =>
    let candidate := dc + e.weight
    let better : Bool :=
      match mapFind s.distance e.to_ with
      | none => true
      | some dn => decide (candidate < dn)
    if better then
      { s with
        distance := mapSet s.distance e.to_ candidate
        previous := mapSet s.previous e.to_ current
        frontier := s.frontier ++ [(candidate, e.to_)] }
    else s

/-- Modelled from the spec: the main loop of Dijkstra's algorithm. Repeatedly
extract the minimum-distance entry; ignore it when its node is settled (a stale
entry); otherwise settle the node, stop when it is the target, and relax its
incident edges. The loop ends when the target is settled or the frontier
empties; `none` when the budget of iterations is used up first. -/
def searchLoop (g : WeightedGraph T) (target : Nat) : Nat → Search → Option Search
  | 0, s => if s.frontier = [] then some s else none
  | fuel + 1, s =>
    match extractMin s.frontier with
    | none => some s
    | some (entry, rest) =>
      if entry.2 ∈ s.settled then searchLoop g target fuel { s with frontier := rest }
      else
        let s1 : Search := { s with frontier := rest, settled := entry.2 :: s.settled }
        if entry.2 = target then some s1
        else searchLoop g target fuel ((adjOf g entry.2).foldl (relax entry.2) s1)

/-- Modelled from the spec: the walk of `buildPath` backward from `to` through
the predecessor map until a node with no predecessor, giving the nodes from
source to target. -/
def walkBack (previous : List (Nat × Nat)) : Nat → Nat → List Nat → List Nat
  | 0, node, acc => node :: acc
  | fuel + 1, node, acc =>
    match mapFind previous node with
    | none => node :: acc
    | some p => walkBack previous fuel p (node :: acc)

/-- The label under which the registry holds a node. -/
def labelOf (g : WeightedGraph T) (node : Nat) : Option T :=
  (g.vertices.find? (fun p => decide (p.2 = node))).map Prod.fst

/-- Modelled from the spec: `buildPath(to, previousMap)`, the labels of the
nodes from source to target. -/
def buildPath (g : WeightedGraph T) (to_ : Nat) (previous : List (Nat × Nat)) : List T :=
  (walkBack previous previous.length to_ []).filterMap (labelOf g)

/-- The number of edge entries of the adjacency store. Each iteration of the
search loop consumes a frontier entry, and there are at most one initial entry
plus one per edge entry. -/
def edgeEntries (g : WeightedGraph T) : Nat :=
  (g.adjacencyList.map (fun p => p.2.length)).sum

/-- Modelled from the spec: `getShortestDistance(from, to)`, Dijkstra's algorithm.
The distance map starts at 0 for `from` and +infinity elsewhere, the frontier
holds `from`. Fails with UnknownNodeError when a label is absent and with
NoPathError when the distance of the target remains infinite; otherwise returns
the total distance and the reconstructed path. -/
def getShortestDistance (g : WeightedGraph T) (from_ to_ : T) : PathResult T :=
  match mapFind g.vertices from_, mapFind g.vertices to_ with
  | some source, some target =>
    match searchLoop g target (edgeEntries g + 2) ⟨[(source, 0)], [], [(0, source)], []⟩ with
    | none => PathResult.outOfFuel
    | some s =>
      match mapFind s.distance target with
      | none => PathResult.noPathError
      | some d => PathResult.ok ⟨buildPath g target s.previous, d⟩
  | _, _ => PathResult.unknownNodeError

/-- The graph of the shortest-path scenario: nodes A, B, C, D (allocated at
addresses 100, 200, 300, 400) and the edges A-B (1), B-C (2), A-C (4). -/
def scenarioABCD : WeightedGraph Char :=
  run empty [Call.addNode 'A' 100, Call.addNode 'B' 200, Call.addNode 'C' 300,
    Call.addNode 'D' 400, Call.addEdge 'A' 'B' 1, Call.addEdge 'B' 'C' 2,
    Call.addEdge 'A' 'C' 4]

/-- The entry `p` of the map `m` has the least key not less than `k`. -/
def LeastKeyGE {K V : Type} [LinearOrder K] (m : List (K × V)) (k : K) (p : K × V) : Prop :=
  p ∈ m ∧ k ≤ p.1 ∧ ∀ q ∈ m, k ≤ q.1 → p.1 ≤ q.1

instance {K V : Type} [LinearOrder K] [DecidableEq V] (m : List (K × V)) (k : K)
    (p : K × V) : Decidable (LeastKeyGE m k p) := by
  unfold LeastKeyGE; infer_instance

end WeightedGraph

/-! # The binary search tree of `non_linear_data_structures/BinaryTree.cpp`

A `Node*` is the subtree it points to, `null` for `nullptr`: nodes are reached
through their parent only and the tree has no sharing. A loop walking down
the tree is a recursion on that subtree. Dereferencing `nullptr` is undefined
behaviour and is reported as such. `mSize` is a natural number: a `size_t`
cannot wrap before memory is exhausted.
-/

namespace BinaryTree

/-- Modelled from the spec: `BinaryTree.h` is not among the sources. A node has
the members `BinaryTree.cpp` reads and writes, `value`, `leftChild` and
`rightChild`, and `new Node{item}` yields a node without children. -/
inductive Node (T : Type) where
  | null
  | node (value : T) (leftChild rightChild : Node T)
  deriving DecidableEq

/-- The members of `Tree<T>`: `root` and `mSize`. -/
structure Tree (T : Type) where
  root : Node T
  mSize : Nat
  deriving DecidableEq

/-- How a call returning an `α` ended: with a value, by
`throw std::runtime_error{"Empty tree"}`, or by dereferencing `nullptr`. -/
inductive Result (α : Type) where
  | value (a : α)
  | emptyTree
  | nullDereference
  deriving DecidableEq

variable {T : Type} [LinearOrder T]

/-- The test `p == nullptr`. -/
def Node.isNull : Node T → Bool
  | Node.null => true
  | Node.node _ _ _ => false

/-- The constructor `Tree()`: `root{nullptr}, mSize{}`. -/
def Tree.empty : Tree T := ⟨Node.null, 0⟩

/-- The loop of `Tree::insert` started at `current`: walk left when
`item < current->value` and right otherwise, and hang the new node on the first
missing child. On `nullptr` (the `root == nullptr` case) the new node itself. -/
def insertNode : Node T → T → Node T
  | Node.null, item => Node.node item Node.null Node.null
  | Node.node value leftChild rightChild, item =>
    if item < value then Node.node value (insertNode leftChild item) rightChild
    else Node.node value leftChild (insertNode rightChild item)

/-- Models `Tree::insert(item)`. -/
def Tree.insert (t : Tree T) (item : T) : Tree T :=
  ⟨insertNode t.root item, t.mSize + 1⟩

/-- The tree built by `insert` calls on an initially empty tree, in list order. -/
def Tree.build (items : List T) : Tree T := items.foldl Tree.insert Tree.empty

/-- The loop of `Tree::find` started at `current`. -/
def findNode : Node T → T → Bool
  | Node.null, _ => false
  | Node.node value leftChild rightChild, item =>
    if value = item then true
    else if item < value then findNode leftChild item
    else findNode rightChild item

/-- Models `Tree::find(item)`. -/
def Tree.find (t : Tree T) (item : T) : Bool := findNode t.root item

/-- Models `Tree::isEmpty()`. -/
def Tree.isEmpty (t : Tree T) : Bool := t.mSize == 0

/-- Models `Tree::isLeaf(rootNode)`, which reads both child pointers of
`rootNode`; `none` when `rootNode` is `nullptr`. -/
def isLeaf : Node T → Option Bool
  | Node.null => none
  | Node.node _ leftChild rightChild => some (leftChild.isNull && rightChild.isNull)

/-- Models `Tree::height(Node*)`: `isLeaf(rootNode)` first, then both recursive
calls; `none` when a `nullptr` is dereferenced. -/
def heightNode : Node T → Option Nat
  | Node.null => none
  | Node.node _ leftChild rightChild =>
    if leftChild.isNull && rightChild.isNull then some 0
    else
      match heightNode leftChild, heightNode rightChild with
      | some a, some b => some (1 + max a b)
      | _, _ => none

/-- Models `Tree::height()`. -/
def Tree.height (t : Tree T) : Result Nat :=
  if t.isEmpty then Result.emptyTree
  else
    match heightNode t.root with
    | some h => Result.value h
    | none => Result.nullDereference

/-- Models `Tree::equals(Node*, Node*)`: `true` when both are `nullptr`; otherwise
both `value` members are read, which is undefined when one of the two is
`nullptr`; then the left subtrees and, if those are equal, the right ones. -/
def equalsNode : Node T → Node T → Option Bool
  | Node.null, Node.null => some true
  | Node.null, Node.node _ _ _ => none
  | Node.node _ _ _, Node.null => none
  | Node.node v l r, Node.node v' l' r' =>
    if v ≠ v' then some false
    else
      match equalsNode l l' with
      | some true => equalsNode r r'
      | other => other

/-- Models `Tree::equals(Tree&)`: the sizes first, then the nodes. -/
def Tree.equals (a b : Tree T) : Result Bool :=
  if a.mSize = b.mSize then
    match equalsNode a.root b.root with
    | some r => Result.value r
    | none => Result.nullDereference
  else Result.value false

/-- The values of a subtree, left to right. -/
def elems : Node T → List T
  | Node.null => []
  | Node.node value leftChild rightChild => elems leftChild ++ value :: elems rightChild

/-- The search-tree ordering kept by `insert`: smaller values to the left, the
others to the right. -/
def IsBST : Node T → Prop
  | Node.null => True
  | Node.node value leftChild rightChild =>
    (∀ y ∈ elems leftChild, y < value) ∧ (∀ y ∈ elems rightChild, value ≤ y) ∧
      IsBST leftChild ∧ IsBST rightChild

/-- Models `Tree::contains(Node*, item)`: the recursive search, left when
`item < rootNode->value`, right when `item > rootNode->value`, and otherwise the
result of `rootNode->value == item`. -/
def containsNode : Node T → T → Bool
  | Node.null, _ => false
  | Node.node value leftChild rightChild, item =>
    if item < value then containsNode leftChild item
    else if item > value then containsNode rightChild item
    else decide (value = item)

/-- Models `Tree::contains(item)`. -/
def Tree.contains (t : Tree T) (item : T) : Bool := containsNode t.root item

end BinaryTree

/-! # The exercises of `linear_data_structures/Exercises.cpp`

A `std::string` is the list of its characters. A `char` is a `Char` and its
integer value is `Char.toNat`, which is exact for ASCII text. Calling `top()`
on an empty `std::stack` is undefined behaviour and is reported as `none`.

Where a `char` indexes a string (`findFirstNonRepeatedCharacter`) it is a signed
8-bit value converted to `size_t`, so that a byte from 0x80 on gives an index of
at least 2^64 - 128. An `int` (`twoSum`) is a 32-bit value: a result outside the
range wraps around, as the compiled code does (in C++ the overflow is undefined).
-/

namespace Exercises

/-- The test `c == '(' || c == '[' || c == '<' || c == '('` of `isBalanced`. -/
def isOpening (c : Char) : Bool :=
  c == '(' || c == '[' || c == '<' || c == '('

/-- The test `current - c == 1 || current - c == 2` of `isBalanced`, on the
integer values of the two characters. -/
def distanceOk (current c : Char) : Bool :=
  decide ((current.toNat : Int) - (c.toNat : Int) = 1) ||
    decide ((current.toNat : Int) - (c.toNat : Int) = 2)

/-- The `for` loop of `Exercises::isBalanced` over the characters still to be
read, with the stack held top first. An opening character is pushed; any other
character occurring in `str` pops the stack and ends the call with `false`
unless the distance test holds. -/
def isBalancedLoop (str : List Char) : List Char → List Char → Option Bool
  | [], _ => some true
  | c :: rest, stack =>
    if isOpening c then isBalancedLoop str rest (c :: stack)
    else if c ∈ str then
      match stack with
      | [] => none
      | current :: below =>
        if distanceOk current c then isBalancedLoop str rest below else some false
    else isBalancedLoop str rest stack

/-- Models `Exercises::isBalanced(str)`. -/
def isBalanced (str : List Char) : Option Bool := isBalancedLoop str str []

/-- The bracket pairs `()`, `[]` and `<>`. -/
def bracketPairs : List (Char × Char) := [('(', ')'), ('[', ']'), ('<', '>')]

/-- The properly nested strings over the bracket pairs: the empty string, and
`o s c t` for a pair `o`, `c` and properly nested `s` and `t`. -/
inductive Nested : List Char → Prop where
  | nil : Nested []
  | wrap (o c : Char) (s t : List Char) :
      (o, c) ∈ bracketPairs → Nested s → Nested t → Nested (o :: s ++ c :: t)

/-- The value a `std::map` holds under the key `k`, if any; the map is the list
of its key/value pairs. -/
def lookup {K V : Type} [DecidableEq K] : List (K × V) → K → Option V
  | [], _ => none
  | (k', v) :: rest, k => if k' = k then some v else lookup rest k

/-- Models the assignment `map[k] = v` of a `std::map`: the pair replaces the one
held under `k`, if any. -/
def assign {K V : Type} [DecidableEq K] (m : List (K × V)) (k : K) (v : V) : List (K × V) :=
  (k, v) :: m.filter (fun p => decide (p.1 ≠ k))

/-- The integer `x` is representable as a 32-bit `int`. -/
def IsInt (x : Int) : Prop := -2147483648 ≤ x ∧ x ≤ 2147483647

instance (x : Int) : Decidable (IsInt x) := by
  unfold IsInt; infer_instance

/-- The `int` that 32-bit arithmetic gives for the exact result `x`: `x` itself
when it is representable, and `x` wrapped around modulo 2^32 otherwise. -/
def wrapInt (x : Int) : Int := (x + 2147483648) % 4294967296 - 2147483648

/-- The `for` loop of `Exercises::twoSum` from index `i` on, over the elements
still to be read: `diff = target - nums[i]`, an `int` subtraction; if
`map.count(diff)` the pair `{map[diff], i}` is returned, otherwise
`map[nums[i]] = i`. Falling out of the loop is `none`, the
`throw std::runtime_error{"No such element"}`. The index `i` is exact for a
vector of at most 2^31 - 1 elements. -/
def twoSumLoop (target : Int) : List Int → Nat → List (Int × Nat) → Option (Nat × Nat)
  | [], _, _ => none
  | x :: rest, i, map =>
    match lookup map (wrapInt (target - x)) with
    | some j => some (j, i)
    | none => twoSumLoop target rest (i + 1) (assign map x i)

/-- Models `Exercises::twoSum(nums, target)`. -/
def twoSum (nums : List Int) (target : Int) : Option (Nat × Nat) :=
  twoSumLoop target nums 0 []

/-- Exact integer arithmetic on the input of `twoSum`: the target and the
elements are `int` values, the indices fit an `int`, and no subtraction
`target - nums[i]` overflows. -/
def ExactArithmetic (nums : List Int) (target : Int) : Prop :=
  nums.length ≤ 2147483647 ∧ IsInt target ∧ ∀ x ∈ nums, IsInt x ∧ IsInt (target - x)

instance (nums : List Int) (target : Int) : Decidable (ExactArithmetic nums target) := by
  unfold ExactArithmetic; infer_instance

/-- Two distinct indices of `nums` hold elements whose sum is `target`. -/
def HasPair (nums : List Int) (target : Int) : Prop :=
  ∃ (a b : Nat) (x y : Int),
    a ≠ b ∧ nums[a]? = some x ∧ nums[b]? = some y ∧ x + y = target

/-- Models `string[pos]` of `std::string`: the character at `pos`, the null
character when `pos == size()`, and `none`, undefined behaviour, beyond. -/
def stringAt (string : List Char) (pos : Nat) : Option Char :=
  if pos < string.length then string[pos]?
  else if pos = string.length then some (Char.ofNat 0)
  else none

/-- The first `for` loop of `findFirstNonRepeatedCharacter`:
`mapOfChars[c] = mapOfChars[c] + 1` for every character, a missing entry
reading as 0. -/
def countChars (string : List Char) : List (Char × Nat) :=
  string.foldl (fun m c => assign m c ((lookup m c).getD 0 + 1)) []

/-- The value of a `char` holding the byte `c`, a signed 8-bit value: the code
of `c` below 128, and the code minus 256 from 128 on. -/
def charValue (c : Char) : Int :=
  if c.toNat < 128 then (c.toNat : Int) else (c.toNat : Int) - 256

/-- The conversion of a `char` to the `size_t` position of `string[i]`: its value
modulo 2^64. -/
def charIndex (c : Char) : Nat := (charValue c % 18446744073709551616).toNat

/-- The string is a sequence of bytes, shorter than 2^63. -/
def IsByteString (string : List Char) : Prop :=
  string.length < 9223372036854775808 ∧ ∀ c ∈ string, c.toNat < 256

instance (string : List Char) : Decidable (IsByteString string) := by
  unfold IsByteString; infer_instance

/-- The second `for` loop of `findFirstNonRepeatedCharacter` over the characters
still to be read: the first character `i` with `mapOfChars[i] == 1` ends the call
with `string[i]`, the string indexed by the `char` converted to `size_t`; falling
out of the loop returns the null character. -/
def firstUniqueLoop (string : List Char) (mapOfChars : List (Char × Nat)) :
    List Char → Option Char
  | [] => some (Char.ofNat 0)
  | i :: rest =>
    if (lookup mapOfChars i).getD 0 = 1 then stringAt string (charIndex i)
    else firstUniqueLoop string mapOfChars rest

/-- Models `Exercises::findFirstNonRepeatedCharacter(string)`. -/
def findFirstNonRepeatedCharacter (string : List Char) : Option Char :=
  firstUniqueLoop string (countChars string) string

/-- The first character of the string that occurs exactly once in it. -/
def firstNonRepeated (string : List Char) : Option Char :=
  string.find? (fun c => decide (string.count c = 1))

end Exercises

/-! # The AVL tree of `non_linear_data_structures/AVLTree.cpp`

As for the binary search tree, an `AVLNode*` is the subtree it points to. The
`height` member is a natural number, `getHeight` and the balance factors are
integers as in the source (`int`); a height stays far below the range of `int`.
`none` reports the dereference of a `nullptr`.
-/

/-- The members of `AVLNode` (`AVLNode.h`): `value`, `height`, `leftChild`,
`rightChild`; `null` is `nullptr`. -/
inductive AVLNode (T : Type) where
  | null
  | node (value : T) (height : Nat) (leftChild rightChild : AVLNode T)
  deriving DecidableEq

/-- The members of `AVLTree<T>`: `mSize` and `root`. -/
structure AVLTree (T : Type) where
  mSize : Nat
  root : AVLNode T
  deriving DecidableEq

namespace AVLTree

variable {T : Type}

/-- Modelled from the spec: the definition of the constructor `AVLNode(T v)` is
not among the sources. A freshly constructed node has height 0 and no
children. -/
def newNode (item : T) : AVLNode T := AVLNode.node item 0 AVLNode.null AVLNode.null

/-- The constructor `AVLTree()`: `mSize{}, root{nullptr}`. -/
def empty : AVLTree T := ⟨0, AVLNode.null⟩

/-- Models `AVLTree::getHeight(node)`: `node == nullptr ? -1 : node->height`. -/
def getHeight : AVLNode T → Int
  | AVLNode.null => -1
  | AVLNode.node _ height _ _ => height

/-- Models `AVLTree::getBalanceFactor(pRoot)`, which reads both children of `pRoot`. -/
def getBalanceFactor : AVLNode T → Option Int
  | AVLNode.null => none
  | AVLNode.node _ _ leftChild rightChild => some (getHeight leftChild - getHeight rightChild)

/-- Models `AVLTree::isLeftHeavy(balanceFactor)`. -/
def isLeftHeavy (balanceFactor : Int) : Bool := decide (balanceFactor > 1)

/-- Models `AVLTree::isRightHeavy(balanceFactor)`. -/
def isRightHeavy (balanceFactor : Int) : Bool := decide (balanceFactor < -1)

/-- The node with the given value and children after the assignment
`height = std::max(getHeight(leftChild), getHeight(rightChild)) + 1`, as made in
`insert` and in `resetHeight`. -/
def withHeight (value : T) (leftChild rightChild : AVLNode T) : AVLNode T :=
  AVLNode.node value (max (getHeight leftChild) (getHeight rightChild) + 1).toNat
    leftChild rightChild

/-- Models `AVLTree::rotateLeft(pRoot)`: `newRoot` is a copy of the right child;
`pRoot` takes the left child of `newRoot` as its right child and becomes the left
child of `newRoot`; `resetHeight` then assigns first the height of `pRoot`, then
that of `newRoot`. -/
def rotateLeft : AVLNode T → Option (AVLNode T)
  | AVLNode.node value _ leftChild (AVLNode.node rValue _ rLeft rRight) =>
    some (withHeight rValue (withHeight value leftChild rLeft) rRight)
  | _ => none

/-- Models `AVLTree::rotateRight(pRoot)`, the mirror image of `rotateLeft`. -/
def rotateRight : AVLNode T → Option (AVLNode T)
  | AVLNode.node value _ (AVLNode.node lValue _ lLeft lRight) rightChild =>
    some (withHeight lValue lLeft (withHeight value lRight rightChild))
  | _ => none

/-- Models `AVLTree::balance(pRoot)`. -/
def balance : AVLNode T → Option (AVLNode T)
  | AVLNode.null => none
  | AVLNode.node value height leftChild rightChild =>
    let balanceFactor := getHeight leftChild - getHeight rightChild
    if isLeftHeavy balanceFactor then
      match getBalanceFactor leftChild with
      | none => none
      | some leftFactor =>
        if leftFactor < 0 then
          match rotateLeft leftChild with
          | none => none
          | some newLeft => rotateRight (AVLNode.node value height newLeft rightChild)
        else rotateRight (AVLNode.node value height leftChild rightChild)
    else if isRightHeavy balanceFactor then
      match getBalanceFactor rightChild with
      | none => none
      | some rightFactor =>
        if rightFactor > 0 then
          match rotateRight rightChild with
          | none => none
          | some newRight => rotateLeft (AVLNode.node value height leftChild newRight)
        else rotateLeft (AVLNode.node value height leftChild rightChild)
    else some (AVLNode.node value height leftChild rightChild)

/-- The true height of a subtree, counted like `getHeight`: -1 for `nullptr`,
0 for a node without children. -/
def trueHeight : AVLNode T → Int
  | AVLNode.null => -1
  | AVLNode.node _ _ leftChild rightChild =>
    max (trueHeight leftChild) (trueHeight rightChild) + 1

/-- Every node has left and right subtrees whose true heights differ by at
most 1. -/
def Balanced : AVLNode T → Prop
  | AVLNode.null => True
  | AVLNode.node _ _ leftChild rightChild =>
    trueHeight leftChild - trueHeight rightChild ≤ 1 ∧
    trueHeight rightChild - trueHeight leftChild ≤ 1 ∧
    Balanced leftChild ∧ Balanced rightChild

/-- Every `height` member holds the true height of its node. -/
def HeightsOk : AVLNode T → Prop
  | AVLNode.null => True
  | AVLNode.node _ height leftChild rightChild =>
    (height : Int) = max (trueHeight leftChild) (trueHeight rightChild) + 1 ∧
    HeightsOk leftChild ∧ HeightsOk rightChild

variable [LinearOrder T]

/-- Models `AVLTree::insert(pRoot, item)`. -/
def insertNode : AVLNode T → T → Option (AVLNode T)
  | AVLNode.null, item => some (newNode item)
  | AVLNode.node value _ leftChild rightChild, item =>
    if item < value then
      match insertNode leftChild item with
      | none => none
      | some newLeft => balance (withHeight value newLeft rightChild)
    else
      match insertNode rightChild item with
      | none => none
      | some newRight => balance (withHeight value leftChild newRight)

/-- Models `AVLTree::insert(item)`: `root = insert(root, item); mSize++`. -/
def insert (t : AVLTree T) (item : T) : Option (AVLTree T) :=
  match insertNode t.root item with
  | none => none
  | some newRoot => some ⟨t.mSize + 1, newRoot⟩

/-- The `insert` calls of a list of items, in list order, on the tree `t`. -/
def insertAll (t : AVLTree T) : List T → Option (AVLTree T)
  | [] => some t
  | item :: rest =>
    match insert t item with
    | none => none
    | some t' => insertAll t' rest

/-- The in-order traversal of a subtree: left subtree, value, right subtree. -/
def inorder : AVLNode T → List T
  | AVLNode.null => []
  | AVLNode.node value _ leftChild rightChild =>
    inorder leftChild ++ value :: inorder rightChild

/-- Models `AVLTree::size()`: `return mSize`. -/
def size (t : AVLTree T) : Nat := t.mSize

end AVLTree

/-! # The directed graph of `non_linear_data_structures/Graph.h`

`Graph.h` declares the class; the bodies of its member functions are not among
the sources and are modelled from the spec. Node identities are addresses as in
the weighted graph, the two maps are lists of key/value pairs, an edge of the
adjacency store is the target node. The recursive traversals take a budget of
nested calls, which the model sets to the number of nodes.
-/

/-- The members of `Graph<T>` (`Graph.h`): the adjacency store
`std::map<Node*, std::list<Node*>*>` and the node registry `std::map<T, Node*>`.
The member `mCounter` is left out: the spec gives it no role. -/
structure Graph (T : Type) where
  adjacencyList : List (Nat × List Nat)
  vertices : List (T × Nat)
  deriving DecidableEq

namespace Graph

open WeightedGraph (mapInsert mapFind keys values pushAt)

/-- How a call returning an `α` ended: normally, with an error of the spec, or
with the budget of nested calls of the model used up. -/
inductive Outcome (α : Type) where
  | ok (a : α)
  | duplicateNodeError
  | unknownNodeError
  | cycleError
  | outOfFuel
  deriving DecidableEq

/-- A call that changes the graph: `addNode(label)` with the address of the new
node, or `addEdge(from, to)`. -/
inductive Call (T : Type) where
  | addNode (label : T) (node : Nat)
  | addEdge (from_ to_ : T)

variable {T : Type}

/-- The constructor `Graph()`: two empty maps. -/
def empty : Graph T := ⟨[], []⟩

/-- The nodes of the graph: the node identities held in the registry, in label
order. -/
def nodes (g : Graph T) : List Nat := values g.vertices

/-- The targets of the edges leaving `node`, in insertion order. -/
def successors (g : Graph T) (node : Nat) : List Nat :=
  (mapFind g.adjacencyList node).getD []

/-- The label under which the registry holds a node. -/
def labelOf (g : Graph T) (node : Nat) : Option T :=
  (g.vertices.find? (fun p => decide (p.2 = node))).map Prod.fst

/-- A loop over nodes threading a state through the calls `visit m`, stopped
when a call runs out of budget. -/
def visitAll {S : Type} (visit : Nat → S → Option S) : List Nat → S → Option S
  | [], s => some s
  | m :: rest, s =>
    match visit m s with
    | none => none
    | some s' => visitAll visit rest s'

/-- Modelled from the spec: the recursive `topologicalSort(node, stack, visited)`.
A visited node is skipped; otherwise the node is marked visited, all its
descendants are explored, and only then is the node pushed onto the output
stack (post-order). The state is the stack, top first, and the visited set. -/
def topologicalSortFrom (g : Graph T) :
    Nat → Nat → List Nat × List Nat → Option (List Nat × List Nat)
  | 0, node, s => if node ∈ s.2 then some s else none
  | fuel + 1, node, s =>
    if node ∈ s.2 then some s
    else
      match visitAll (topologicalSortFrom g fuel) (successors g node) (s.1, node :: s.2) with
      | none => none
      | some s' => some (node :: s'.1, s'.2)

/-- A loop of the cycle detection over nodes `m`: a done node is skipped, an
in-progress node is a back-edge and ends the search with `true`, any other node
is explored by `explore` and a cycle found there ends the search. The state is
the in-progress set and the done set. -/
def hasCycleAmong
    (explore : Nat → List Nat × List Nat → Option (Bool × (List Nat × List Nat))) :
    List Nat → List Nat × List Nat → Option (Bool × (List Nat × List Nat))
  | [], s => some (false, s)
  | m :: rest, s =>
    if m ∈ s.2 then hasCycleAmong explore rest s
    else if m ∈ s.1 then some (true, s)
    else
      match explore m s with
      | none => none
      | some (true, s') => some (true, s')
      | some (false, s') => hasCycleAmong explore rest s'

/-- Modelled from the spec: the recursive `hasCycle(node, visiting, visited)` of
the three-state coloring DFS. The node becomes in-progress, its neighbours are
examined, and when no back-edge was met the node leaves the in-progress set and
becomes done. -/
def hasCycleFrom (g : Graph T) :
    Nat → Nat → List Nat × List Nat → Option (Bool × (List Nat × List Nat))
  | 0, _, _ => none
  | fuel + 1, node, s =>
    match hasCycleAmong (hasCycleFrom g fuel) (successors g node) (node :: s.1, s.2) with
    | none => none
    | some (true, s') => some (true, s')
    | some (false, s') => some (false, (s'.1.erase node, node :: s'.2))

/-- Modelled from the spec: `hasCycle()`, the three-state coloring DFS started
from every node that is not done yet. -/
def hasCycle (g : Graph T) : Outcome Bool :=
  match hasCycleAmong (hasCycleFrom g (nodes g).length) (nodes g) ([], []) with
  | none => Outcome.outOfFuel
  | some (b, _) => Outcome.ok b

/-- Modelled from the spec: `topologicalSort()`. Fails with CycleError if the
graph contains a cycle; otherwise a DFS from every unvisited node pushes each
node after its descendants, and the stack read from the top (the reverse of the
push order) gives the labels. -/
def topologicalSort (g : Graph T) : Outcome (List T) :=
  match hasCycle g with
  | Outcome.ok false =>
    match visitAll (topologicalSortFrom g (nodes g).length) (nodes g) ([], []) with
    | none => Outcome.outOfFuel
    | some s => Outcome.ok (s.1.filterMap (labelOf g))
  | Outcome.ok true => Outcome.cycleError
  | _ => Outcome.outOfFuel

/-- The edge relation: `v` is a target in the adjacency list of `u`. -/
def Edge (g : Graph T) (u v : Nat) : Prop := v ∈ successors g u

/-- The graph contains a cycle: some node reaches itself along one or more
edges. -/
def HasCycle (g : Graph T) : Prop := ∃ u, Relation.TransGen (Edge g) u u

/-- The invariants of the data model: the keys of the adjacency store are the
nodes of the registry, and every edge ends at a node of the registry. -/
structure WellFormed (g : Graph T) : Prop where
  keysNodes : ∀ n, n ∈ keys g.adjacencyList ↔ n ∈ nodes g
  targets : ∀ p ∈ g.adjacencyList, ∀ v ∈ p.2, v ∈ nodes g

/-- A finishing order: every node of the list has all its successors further
down the list, and occurs once. -/
def Topo (g : Graph T) : List Nat → Prop
  | [] => True
  | u :: rest => (∀ v ∈ successors g u, v ∈ rest) ∧ u ∉ rest ∧ Topo g rest

/-- The number of nodes not in `seen`; it bounds the depth of the recursion. -/
def unvisited (g : Graph T) (seen : List Nat) : Nat :=
  ((nodes g).filter (fun x => decide (x ∉ seen))).length

/-- What the topological traversal needs of a state (stack, visited): the stack
is a finishing order, every stacked node is visited, every visited node is a
node of the graph. -/
structure TopoPre (g : Graph T) (s : List Nat × List Nat) : Prop where
  topo : Topo g s.1
  stackSeen : ∀ x ∈ s.1, x ∈ s.2
  seenNodes : ∀ x ∈ s.2, x ∈ nodes g

/-- How the topological traversal changes a state: the stack stays a finishing
order and keeps its nodes, the visited set grows by exactly the nodes newly
stacked, and those were not visited before. -/
structure TopoStep (g : Graph T) (s s' : List Nat × List Nat) : Prop where
  topo : Topo g s'.1
  mono : ∀ x ∈ s.1, x ∈ s'.1
  seen : ∀ x, x ∈ s'.2 ↔ x ∈ s.2 ∨ x ∈ s'.1
  fresh : ∀ x ∈ s'.1, x ∈ s.1 ∨ x ∉ s.2
  seenNodes : ∀ x ∈ s'.2, x ∈ nodes g

/-- What the cycle detection needs of a state (in-progress, done): the done list
is a finishing order of nodes of the graph, none of them in progress. -/
structure CyclePre (g : Graph T) (s : List Nat × List Nat) : Prop where
  topo : Topo g s.2
  doneNodes : ∀ x ∈ s.2, x ∈ nodes g
  disjoint : ∀ x ∈ s.2, x ∉ s.1

/-- How a cycle detection that found no cycle changes a state: the in-progress
set is restored, the done list grows and stays a finishing order. -/
structure CycleStep (g : Graph T) (s s' : List Nat × List Nat) : Prop where
  same : s'.1 = s.1
  topo : Topo g s'.2
  mono : ∀ x ∈ s.2, x ∈ s'.2
  doneNodes : ∀ x ∈ s'.2, x ∈ nodes g
  disjoint : ∀ x ∈ s'.2, x ∉ s.1

/-- The contract of an exploration `explore m s` within a budget `f`. -/
def ExploreSpec (g : Graph T)
    (explore : Nat → List Nat × List Nat → Option (Bool × (List Nat × List Nat)))
    (f : Nat) : Prop :=
  ∀ (m : Nat) (s : List Nat × List Nat), m ∈ nodes g → m ∉ s.1 → m ∉ s.2 →
    CyclePre g s →
    (∀ x ∈ s.1, Relation.TransGen (Edge g) x m) → unvisited g (s.1 ++ s.2) ≤ f →
    ∃ b s', explore m s = some (b, s') ∧ (b = true → HasCycle g) ∧
      (b = false → CycleStep g s s' ∧ m ∈ s'.2)

/-- The contract of a topological visit `visit m s` within a budget `f`. -/
def VisitSpec (g : Graph T) (visit : Nat → List Nat × List Nat → Option (List Nat × List Nat))
    (f : Nat) : Prop :=
  ∀ (m : Nat) (s : List Nat × List Nat), m ∈ nodes g → TopoPre g s →
    (∀ x ∈ s.2, x ∉ s.1 → Relation.TransGen (Edge g) x m) → unvisited g s.2 ≤ f →
    ∃ s', visit m s = some s' ∧ TopoStep g s s' ∧ m ∈ s'.1

variable [LinearOrder T]

/-- Modelled from the spec: `addNode(label)` fails with DuplicateNodeError if the
label is already present; otherwise creates a node with an empty adjacency
entry. -/
def addNode (g : Graph T) (label : T) (node : Nat) : Outcome (Graph T) :=
  match mapFind g.vertices label with
  | some _ => Outcome.duplicateNodeError
  | none => Outcome.ok ⟨mapInsert g.adjacencyList node [], mapInsert g.vertices label node⟩

/-- Modelled from the spec: `addEdge(from, to)` fails with UnknownNodeError if
either label is absent; otherwise appends a directed edge to the adjacency list
of `from`. -/
def addEdge (g : Graph T) (from_ to_ : T) : Outcome (Graph T) :=
  match mapFind g.vertices from_, mapFind g.vertices to_ with
  | some fromNode, some toNode =>
    Outcome.ok ⟨pushAt g.adjacencyList fromNode toNode, g.vertices⟩
  | _, _ => Outcome.unknownNodeError

/-- A sequence of calls, made in list order and stopped by the first error. -/
def run (g : Graph T) : List (Call T) → Outcome (Graph T)
  | [] => Outcome.ok g
  | Call.addNode label node :: rest =>
    match addNode g label node with
    | Outcome.ok g' => run g' rest
    | other => other
  | Call.addEdge from_ to_ :: rest =>
    match addEdge g from_ to_ with
    | Outcome.ok g' => run g' rest
    | other => other

/-- The graph with nodes A, B, C (at addresses 100, 200, 300) and the edges
A -> B, B -> C, C -> A, as built by the calls. -/
def triangle : Outcome (Graph Char) :=
  run empty [Call.addNode 'A' 100, Call.addNode 'B' 200, Call.addNode 'C' 300,
    Call.addEdge 'A' 'B', Call.addEdge 'B' 'C', Call.addEdge 'C' 'A']

/-- The state of the graph `triangle`. -/
def triangleGraph : Graph Char :=
  ⟨[(100, [200]), (200, [300]), (300, [100])], [('A', 100), ('B', 200), ('C', 300)]⟩

/-- The graph with nodes A, B, C, D (at addresses 100 to 400) and the edges
A -> B, A -> C, B -> D, C -> D, as built by the calls. -/
def diamond : Outcome (Graph Char) :=
  run empty [Call.addNode 'A' 100, Call.addNode 'B' 200, Call.addNode 'C' 300,
    Call.addNode 'D' 400, Call.addEdge 'A' 'B', Call.addEdge 'A' 'C',
    Call.addEdge 'B' 'D', Call.addEdge 'C' 'D']

/-- The state of the graph `diamond`. -/
def diamondGraph : Graph Char :=
  ⟨[(100, [200, 300]), (200, [400]), (300, [400]), (400, [])],
    [('A', 100), ('B', 200), ('C', 300), ('D', 400)]⟩

end Graph

namespace WeightedGraph

variable {T : Type} [LinearOrder T]

/-! ## Lemmas on the map operations -/

theorem mem_keys_of_mem {K V : Type} {m : List (K × V)} {p : K × V} (h : p ∈ m) :
    p.1 ∈ keys m :=
  List.mem_map_of_mem Prod.fst h

theorem mem_values_of_mem {K V : Type} {m : List (K × V)} {p : K × V} (h : p ∈ m) :
    p.2 ∈ values m :=
  List.mem_map_of_mem Prod.snd h

section MapLemmas

variable {K V E : Type} [LinearOrder K]

theorem sorted_cons {a : K × V} {m : List (K × V)} :
    Sorted (a :: m) ↔ (∀ k ∈ keys m, a.1 < k) ∧ Sorted m := by
  simp [Sorted, keys, List.pairwise_cons]

theorem lowerBound_mem {m : List (K × V)} {k : K} {p : K × V}
    (h : lowerBound m k = some p) : p ∈ m := by
  induction m with
  | nil => simp [lowerBound] at h
  | cons a rest ih =>
    obtain ⟨k', v'⟩ := a
    simp only [lowerBound] at h
    split at h
    · exact List.mem_cons_of_mem _ (ih h)
    · simp only [Option.some.injEq] at h
      subst h
      exact List.mem_cons_self _ _

theorem lowerBound_not_lt {m : List (K × V)} {k : K} {p : K × V}
    (h : lowerBound m k = some p) : ¬ p.1 < k := by
  induction m with
  | nil => simp [lowerBound] at h
  | cons a rest ih =>
    obtain ⟨k', v'⟩ := a
    simp only [lowerBound] at h
    split at h
    · exact ih h
    · simp only [Option.some.injEq] at h
      subst h
      assumption

theorem lowerBound_of_mem {m : List (K × V)} {k : K} {v : V}
    (hs : Sorted m) (h : (k, v) ∈ m) : lowerBound m k = some (k, v) := by
  induction m with
  | nil => simp at h
  | cons a rest ih =>
    obtain ⟨k', v'⟩ := a
    obtain ⟨hlt, hs'⟩ := sorted_cons.mp hs
    simp only [lowerBound]
    rcases List.mem_cons.mp h with heq | hmem
    · simp only [Prod.mk.injEq] at heq
      obtain ⟨rfl, rfl⟩ := heq
      simp
    · have hk : k' < k := hlt k (mem_keys_of_mem hmem)
      simp [hk, ih hs' hmem]

theorem mem_of_mapFind {m : List (K × V)} {k : K} {v : V}
    (h : mapFind m k = some v) : (k, v) ∈ m := by
  induction m with
  | nil => simp [mapFind] at h
  | cons a rest ih =>
    obtain ⟨k', v'⟩ := a
    simp only [mapFind] at h
    split at h
    · simp only [Option.some.injEq] at h
      subst h
      rename_i hk
      subst hk
      exact List.mem_cons_self _ _
    · exact List.mem_cons_of_mem _ (ih h)

theorem mapFind_eq_none {m : List (K × V)} {k : K} (h : k ∉ keys m) :
    mapFind m k = none := by
  induction m with
  | nil => rfl
  | cons a rest ih =>
    obtain ⟨k', v'⟩ := a
    simp only [keys, List.map_cons, List.mem_cons, not_or] at h
    simp only [mapFind]
    rw [if_neg (fun hk => h.1 hk.symm)]
    exact ih h.2

theorem mapFind_isSome_of_mem {m : List (K × V)} {k : K} (h : k ∈ keys m) :
    ∃ v, mapFind m k = some v := by
  induction m with
  | nil => simp [keys] at h
  | cons a rest ih =>
    obtain ⟨k', v'⟩ := a
    simp only [mapFind]
    by_cases hk : k' = k
    · exact ⟨v', by simp [hk]⟩
    · simp only [keys, List.map_cons, List.mem_cons] at h
      rcases h with h | h
      · exact absurd h.symm hk
      · simpa [hk] using ih h

theorem mem_mapInsert {m : List (K × V)} {k : K} {v : V} {p : K × V}
    (h : p ∈ mapInsert m k v) : p = (k, v) ∨ p ∈ m := by
  induction m with
  | nil => simpa [mapInsert] using h
  | cons a rest ih =>
    obtain ⟨k', v'⟩ := a
    simp only [mapInsert] at h
    split at h
    · simpa using h
    · split at h
      · rcases List.mem_cons.mp h with h | h
        · exact Or.inr (h ▸ List.mem_cons_self _ _)
        · rcases ih h with h | h
          · exact Or.inl h
          · exact Or.inr (List.mem_cons_of_mem _ h)
      · exact Or.inr h

theorem mem_mapInsert_of_mem {m : List (K × V)} {k : K} {v : V} {p : K × V}
    (h : p ∈ m) : p ∈ mapInsert m k v := by
  induction m with
  | nil => simp at h
  | cons a rest ih =>
    obtain ⟨k', v'⟩ := a
    simp only [mapInsert]
    split
    · exact List.mem_cons_of_mem _ h
    · split
      · rcases List.mem_cons.mp h with h | h
        · exact h ▸ List.mem_cons_self _ _
        · exact List.mem_cons_of_mem _ (ih h)
      · exact h

theorem mapInsert_of_mem {m : List (K × V)} {k : K} {v : V}
    (hs : Sorted m) (h : k ∈ keys m) : mapInsert m k v = m := by
  induction m with
  | nil => simp [keys] at h
  | cons a rest ih =>
    obtain ⟨k', v'⟩ := a
    obtain ⟨hlt, hs'⟩ := sorted_cons.mp hs
    simp only [keys, List.map_cons, List.mem_cons] at h
    simp only [mapInsert]
    rcases h with rfl | h
    · simp
    · have hk : k' < k := hlt k h
      rw [if_neg (not_lt_of_lt hk), if_pos hk, ih hs' h]

theorem mapInsert_perm {m : List (K × V)} {k : K} {v : V}
    (h : k ∉ keys m) : List.Perm (mapInsert m k v) ((k, v) :: m) := by
  induction m with
  | nil => simp [mapInsert]
  | cons a rest ih =>
    obtain ⟨k', v'⟩ := a
    simp only [keys, List.map_cons, List.mem_cons, not_or] at h
    simp only [mapInsert]
    split
    · exact List.Perm.refl _
    · rename_i h1
      have hk : k' < k := lt_of_le_of_ne (not_lt.mp h1) (fun e => h.1 e.symm)
      rw [if_pos hk]
      exact ((ih h.2).cons (k', v')).trans (List.Perm.swap _ _ _)

theorem mapInsert_sorted {m : List (K × V)} {k : K} {v : V}
    (hs : Sorted m) : Sorted (mapInsert m k v) := by
  induction m with
  | nil => simp [mapInsert, Sorted, keys]
  | cons a rest ih =>
    obtain ⟨k', v'⟩ := a
    obtain ⟨hlt, hs'⟩ := sorted_cons.mp hs
    simp only [mapInsert]
    split
    · rename_i h1
      refine sorted_cons.mpr ⟨?_, hs⟩
      intro x hx
      simp only [keys, List.map_cons, List.mem_cons] at hx
      rcases hx with rfl | hx
      · exact h1
      · exact lt_trans h1 (hlt x hx)
    · split
      · rename_i h2
        refine sorted_cons.mpr ⟨?_, ih hs'⟩
        intro x hx
        obtain ⟨p, hp, rfl⟩ := List.mem_map.mp hx
        rcases mem_mapInsert hp with rfl | hp
        · exact h2
        · exact hlt _ (mem_keys_of_mem hp)
      · exact hs

theorem mapFind_mapInsert_ne {m : List (K × V)} {k x : K} {v : V}
    (h : x ≠ k) : mapFind (mapInsert m k v) x = mapFind m x := by
  induction m with
  | nil => simp [mapInsert, mapFind, h.symm]
  | cons a rest ih =>
    obtain ⟨k', v'⟩ := a
    simp only [mapInsert]
    split
    · simp [mapFind, h.symm]
    · split
      · simp [mapFind, ih]
      · rfl

theorem mapFind_mapInsert_self {m : List (K × V)} {k : K} {v : V}
    (h : k ∉ keys m) : mapFind (mapInsert m k v) k = some v := by
  induction m with
  | nil => simp [mapInsert, mapFind]
  | cons a rest ih =>
    obtain ⟨k', v'⟩ := a
    simp only [keys, List.map_cons, List.mem_cons, not_or] at h
    simp only [mapInsert]
    split
    · simp [mapFind]
    · rename_i h1
      have hk : k' < k := lt_of_le_of_ne (not_lt.mp h1) (fun e => h.1 e.symm)
      rw [if_pos hk]
      simp only [mapFind]
      rw [if_neg (fun e => h.1 e.symm)]
      exact ih h.2

theorem pushAt_cons (k' : K) (l : List E) (rest : List (K × List E)) (k : K) (e : E) :
    pushAt ((k', l) :: rest) k e =
      (if k' = k then (k', l ++ [e]) else (k', l)) :: pushAt rest k e := rfl

theorem keys_pushAt (m : List (K × List E)) (k : K) (e : E) :
    keys (pushAt m k e) = keys m := by
  induction m with
  | nil => rfl
  | cons a rest ih =>
    obtain ⟨k', l⟩ := a
    rw [pushAt_cons]
    simp only [keys, List.map_cons] at ih ⊢
    rw [ih]
    split <;> rfl

theorem pushAt_of_not_mem {m : List (K × List E)} {k : K} {e : E}
    (h : k ∉ keys m) : pushAt m k e = m := by
  induction m with
  | nil => rfl
  | cons a rest ih =>
    obtain ⟨k', l⟩ := a
    simp only [keys, List.map_cons, List.mem_cons, not_or] at h
    rw [pushAt_cons, if_neg (fun hk => h.1 hk.symm), ih h.2]

theorem mem_pushAt {m : List (K × List E)} {k : K} {e : E} {p : K × List E}
    (h : p ∈ pushAt m k e) :
    ∃ q ∈ m, p.1 = q.1 ∧ (p.2 = q.2 ∨ (q.1 = k ∧ p.2 = q.2 ++ [e])) := by
  obtain ⟨q, hq, hp⟩ := List.mem_map.mp h
  refine ⟨q, hq, ?_⟩
  by_cases hk : q.1 = k
  · rw [if_pos hk] at hp
    subst hp
    exact ⟨rfl, Or.inr ⟨hk, rfl⟩⟩
  · rw [if_neg hk] at hp
    subst hp
    exact ⟨rfl, Or.inl rfl⟩

theorem mapFind_pushAt (m : List (K × List E)) (k x : K) (e : E) :
    mapFind (pushAt m k e) x =
      if x = k then (mapFind m x).map (fun l => l ++ [e]) else mapFind m x := by
  induction m with
  | nil => simp [pushAt, mapFind]
  | cons a rest ih =>
    obtain ⟨k', l⟩ := a
    rw [pushAt_cons]
    by_cases hk : k' = k
    · rw [if_pos hk]
      by_cases hx : x = k
      · have hkx : k' = x := hk.trans hx.symm
        simp [mapFind, hkx, hx]
      · have hkx : ¬ k' = x := fun h => hx (h.symm.trans hk)
        simp only [mapFind]
        rw [if_neg hkx, if_neg hkx, ih]
    · rw [if_neg hk]
      by_cases hkx : k' = x
      · have hx : ¬ x = k := fun h => hk (hkx.trans h)
        simp [mapFind, hkx, hx]
      · simp only [mapFind]
        rw [if_neg hkx, if_neg hkx, ih]

theorem getD_mapFind_pushAt {m : List (K × List E)} {k : K} (x : K) (e : E)
    (h : k ∈ keys m) :
    (mapFind (pushAt m k e) x).getD [] =
      (mapFind m x).getD [] ++ (if x = k then [e] else []) := by
  rw [mapFind_pushAt]
  by_cases hx : x = k
  · subst hx
    obtain ⟨l, hl⟩ := mapFind_isSome_of_mem h
    simp [hl]
  · simp [hx]

theorem lowerBoundPushBack_of_mem {m : List (K × List E)} {k : K} (e : E)
    (hs : Sorted m) (h : k ∈ keys m) :
    lowerBoundPushBack m k e = some (pushAt m k e) := by
  induction m with
  | nil => simp [keys] at h
  | cons a rest ih =>
    obtain ⟨k', l⟩ := a
    obtain ⟨hlt, hs'⟩ := sorted_cons.mp hs
    simp only [keys, List.map_cons, List.mem_cons] at h
    simp only [lowerBoundPushBack]
    rcases h with rfl | h
    · have hn : k ∉ keys rest := fun hm => lt_irrefl _ (hlt k hm)
      rw [pushAt_cons, if_pos rfl, pushAt_of_not_mem hn, if_neg (lt_irrefl k)]
    · have hk : k' < k := hlt k h
      rw [pushAt_cons, if_neg (ne_of_lt hk), if_pos hk, ih hs' h]
      rfl

theorem lowerBound_key_of_mem {m : List (K × V)} {k : K}
    (hs : Sorted m) (h : k ∈ keys m) : ∃ v, lowerBound m k = some (k, v) := by
  obtain ⟨p, hp, rfl⟩ := List.mem_map.mp h
  exact ⟨p.2, lowerBound_of_mem hs hp⟩

theorem lowerBound_eq_none_iff {m : List (K × V)} {k : K} :
    lowerBound m k = none ↔ ∀ q ∈ m, q.1 < k := by
  induction m with
  | nil => simp [lowerBound]
  | cons a rest ih =>
    obtain ⟨k', v'⟩ := a
    simp only [lowerBound, List.mem_cons, forall_eq_or_imp]
    by_cases h : k' < k
    · rw [if_pos h, ih]
      exact ⟨fun hr => ⟨h, hr⟩, fun hr => hr.2⟩
    · rw [if_neg h]
      exact ⟨fun hr => Option.noConfusion hr, fun hr => absurd hr.1 h⟩

theorem lowerBound_eq_some_iff {m : List (K × V)} (hs : Sorted m) {k : K} {p : K × V} :
    lowerBound m k = some p ↔ LeastKeyGE m k p := by
  induction m with
  | nil => simp [lowerBound, LeastKeyGE]
  | cons a rest ih =>
    obtain ⟨k', v'⟩ := a
    obtain ⟨hlt, hs'⟩ := sorted_cons.mp hs
    simp only [lowerBound]
    by_cases h : k' < k
    · rw [if_pos h, ih hs']
      constructor
      · rintro ⟨h1, h2, h3⟩
        refine ⟨List.mem_cons_of_mem _ h1, h2, fun q hq hk => ?_⟩
        rcases List.mem_cons.mp hq with rfl | hq
        · exact absurd h (not_lt.mpr hk)
        · exact h3 q hq hk
      · rintro ⟨h1, h2, h3⟩
        refine ⟨?_, h2, fun q hq hk => h3 q (List.mem_cons_of_mem _ hq) hk⟩
        rcases List.mem_cons.mp h1 with rfl | h1
        · exact absurd h (not_lt.mpr h2)
        · exact h1
    · rw [if_neg h]
      constructor
      · intro hp
        have hp' := Option.some.inj hp
        subst hp'
        refine ⟨List.mem_cons_self _ _, not_lt.mp h, fun q hq _ => ?_⟩
        rcases List.mem_cons.mp hq with rfl | hq
        · exact le_refl _
        · exact le_of_lt (hlt q.1 (mem_keys_of_mem hq))
      · rintro ⟨h1, -, h3⟩
        rcases List.mem_cons.mp h1 with rfl | h1
        · rfl
        · have h4 : p.1 ≤ k' := h3 (k', v') (List.mem_cons_self _ _) (not_lt.mp h)
          exact absurd (hlt p.1 (mem_keys_of_mem h1)) (not_lt.mpr h4)

end MapLemmas

/-! ## Lemmas on the graph operations -/

section GraphLemmas

variable {T : Type} [LinearOrder T]

theorem mem_keys_mapInsert_self {K V : Type} [LinearOrder K] (m : List (K × V)) (k : K)
    (v : V) : k ∈ keys (mapInsert m k v) := by
  induction m with
  | nil => simp [mapInsert, keys]
  | cons a rest ih =>
    obtain ⟨k', v'⟩ := a
    simp only [mapInsert]
    split
    · simp [keys]
    · rename_i h1
      split
      · simp only [keys, List.map_cons, List.mem_cons] at ih ⊢
        exact Or.inr ih
      · rename_i h2
        have : k' = k := le_antisymm (not_lt.mp h1) (not_lt.mp h2)
        simp [keys, this]

theorem addEdge_of_none (g : WeightedGraph T) (f t : T) (w : Int)
    (h : getNode g f = none ∨ getNode g t = none) :
    addEdge g f t w = (Status.invalidArgument, g) := by
  unfold addEdge
  rcases h with h | h
  · rw [h]
  · rw [h]
    cases getNode g f <;> rfl

theorem addEdge_of_some {g : WeightedGraph T} (hinv : Inv g) {f t : T} {fp tp : T × Nat}
    (w : Int) (hf : getNode g f = some fp) (ht : getNode g t = some tp) :
    addEdge g f t w = (Status.ok, ⟨g.vertices,
      pushAt (pushAt g.adjacencyList fp.2 ⟨fp.2, tp.2, w⟩) tp.2 ⟨tp.2, fp.2, w⟩⟩) := by
  have hfk : fp.2 ∈ keys g.adjacencyList :=
    hinv.regInAdj _ (mem_values_of_mem (lowerBound_mem hf))
  have htk : tp.2 ∈ keys g.adjacencyList :=
    hinv.regInAdj _ (mem_values_of_mem (lowerBound_mem ht))
  have h1 := lowerBoundPushBack_of_mem (⟨fp.2, tp.2, w⟩ : Edge) hinv.sortedA hfk
  have hs1 : Sorted (pushAt g.adjacencyList fp.2 (⟨fp.2, tp.2, w⟩ : Edge)) := by
    unfold Sorted
    rw [keys_pushAt]
    exact hinv.sortedA
  have htk1 : tp.2 ∈ keys (pushAt g.adjacencyList fp.2 (⟨fp.2, tp.2, w⟩ : Edge)) := by
    rw [keys_pushAt]
    exact htk
  have h2 := lowerBoundPushBack_of_mem (⟨tp.2, fp.2, w⟩ : Edge) hs1 htk1
  unfold addEdge
  rw [hf, ht]
  simp only [h1, h2]

theorem inv_empty : Inv (empty : WeightedGraph T) where
  sortedV := List.Pairwise.nil
  sortedA := List.Pairwise.nil
  regInAdj := by intro n hn; simp [empty, values] at hn
  edges := by intro p hp; simp [empty] at hp

theorem inv_addNode {g : WeightedGraph T} (hinv : Inv g) (label : T) (node : Nat) :
    Inv (addNode g label node).2 where
  sortedV := mapInsert_sorted hinv.sortedV
  sortedA := mapInsert_sorted hinv.sortedA
  regInAdj := by
    intro n hn
    obtain ⟨p, hp, rfl⟩ := List.mem_map.mp hn
    rcases mem_mapInsert hp with rfl | hp
    · exact mem_keys_mapInsert_self _ _ _
    · obtain ⟨q, hq, hqn⟩ := List.mem_map.mp (hinv.regInAdj _ (mem_values_of_mem hp))
      exact hqn ▸ mem_keys_of_mem (mem_mapInsert_of_mem hq)
  edges := by
    intro p hp e he
    rcases mem_mapInsert hp with rfl | hp
    · simp at he
    · obtain ⟨h1, h2, h3⟩ := hinv.edges p hp e he
      have hsub : ∀ n ∈ values g.vertices, n ∈ values (mapInsert g.vertices label node) := by
        intro n hn
        obtain ⟨q, hq, rfl⟩ := List.mem_map.mp hn
        exact mem_values_of_mem (mem_mapInsert_of_mem hq)
      exact ⟨h1, hsub _ h2, hsub _ h3⟩

theorem inv_addEdge {g : WeightedGraph T} (hinv : Inv g) (f t : T) (w : Int) :
    Inv (addEdge g f t w).2 := by
  cases hf : getNode g f with
  | none => rw [addEdge_of_none g f t w (Or.inl hf)]; exact hinv
  | some fp =>
    cases ht : getNode g t with
    | none => rw [addEdge_of_none g f t w (Or.inr ht)]; exact hinv
    | some tp =>
      rw [addEdge_of_some hinv w hf ht]
      have hfv : fp.2 ∈ values g.vertices := mem_values_of_mem (lowerBound_mem hf)
      have htv : tp.2 ∈ values g.vertices := mem_values_of_mem (lowerBound_mem ht)
      refine ⟨hinv.sortedV, ?_, ?_, ?_⟩
      · show Sorted (pushAt (pushAt g.adjacencyList _ _) _ _)
        unfold Sorted
        rw [keys_pushAt, keys_pushAt]
        exact hinv.sortedA
      · intro n hn
        show n ∈ keys (pushAt (pushAt g.adjacencyList _ _) _ _)
        rw [keys_pushAt, keys_pushAt]
        exact hinv.regInAdj n hn
      · intro p hp e he
        obtain ⟨q, hq, hpq, hq2⟩ := mem_pushAt hp
        obtain ⟨r, hr, hqr, hr2⟩ := mem_pushAt hq
        have hold : ∀ e ∈ r.2, e.from_ = p.1 ∧ e.from_ ∈ values g.vertices ∧
            e.to_ ∈ values g.vertices := by
          intro e he
          rw [hpq, hqr]
          exact hinv.edges r hr e he
        have hmid : ∀ e ∈ q.2, e.from_ = p.1 ∧ e.from_ ∈ values g.vertices ∧
            e.to_ ∈ values g.vertices := by
          intro e he
          rcases hr2 with h | ⟨hk, h⟩
          · exact hold e (h ▸ he)
          · rw [h] at he
            rcases List.mem_append.mp he with he | he
            · exact hold e he
            · simp only [List.mem_singleton] at he
              subst he
              exact ⟨by rw [hpq, hqr, hk], hfv, htv⟩
        rcases hq2 with h | ⟨hk, h⟩
        · exact hmid e (h ▸ he)
        · rw [h] at he
          rcases List.mem_append.mp he with he | he
          · exact hmid e he
          · simp only [List.mem_singleton] at he
            subst he
            exact ⟨by rw [hpq, hk], htv, hfv⟩

theorem reachable_inv {g : WeightedGraph T} (h : Reachable g) : Inv g := by
  induction h with
  | empty => exact inv_empty
  | addNode g label node _ _ ih => exact inv_addNode ih label node
  | addEdge g f t w _ ih => exact inv_addEdge ih f t w

theorem adjOf_addNode {g : WeightedGraph T} (label : T) {node : Nat}
    (hfresh : node ∉ keys g.adjacencyList) (x : Nat) :
    adjOf (addNode g label node).2 x = adjOf g x := by
  show (mapFind (mapInsert g.adjacencyList node []) x).getD [] = _
  unfold adjOf
  by_cases hx : x = node
  · subst hx
    rw [mapFind_mapInsert_self hfresh, mapFind_eq_none hfresh]
    rfl
  · rw [mapFind_mapInsert_ne hx]

theorem adjOf_addEdge {g : WeightedGraph T} (hinv : Inv g) {f t : T} {fp tp : T × Nat}
    (w : Int) (hf : getNode g f = some fp) (ht : getNode g t = some tp) (x : Nat) :
    adjOf (addEdge g f t w).2 x =
      adjOf g x ++ (if x = fp.2 then [(⟨fp.2, tp.2, w⟩ : Edge)] else [])
        ++ (if x = tp.2 then [(⟨tp.2, fp.2, w⟩ : Edge)] else []) := by
  have hfk : fp.2 ∈ keys g.adjacencyList :=
    hinv.regInAdj _ (mem_values_of_mem (lowerBound_mem hf))
  have htk : tp.2 ∈ keys (pushAt g.adjacencyList fp.2 (⟨fp.2, tp.2, w⟩ : Edge)) := by
    rw [keys_pushAt]
    exact hinv.regInAdj _ (mem_values_of_mem (lowerBound_mem ht))
  rw [addEdge_of_some hinv w hf ht]
  show (mapFind (pushAt (pushAt g.adjacencyList _ _) _ _) x).getD [] = _
  rw [getD_mapFind_pushAt x _ htk, getD_mapFind_pushAt x _ hfk]
  rfl

theorem getNode_of_mapFind {g : WeightedGraph T} (hs : Sorted g.vertices) {label : T}
    {n : Nat} (h : mapFind g.vertices label = some n) : getNode g label = some (label, n) :=
  lowerBound_of_mem hs (mem_of_mapFind h)

theorem nodup_values_mapInsert {m : List (T × Nat)} {label : T} {node : Nat}
    (hs : Sorted m) (hn : (values m).Nodup) (hfresh : node ∉ values m) :
    (values (mapInsert m label node)).Nodup := by
  by_cases hl : label ∈ keys m
  · rw [mapInsert_of_mem hs hl]
    exact hn
  · have hp : List.Perm (values (mapInsert m label node)) (node :: values m) :=
      (mapInsert_perm hl).map Prod.snd
    exact hp.nodup_iff.mpr (List.nodup_cons.mpr ⟨hfresh, hn⟩)

theorem reachable_nodup {g : WeightedGraph T} (h : Reachable g) :
    (values g.vertices).Nodup := by
  induction h with
  | empty => exact List.nodup_nil
  | addNode g label node hr hfresh ih =>
    exact nodup_values_mapInsert (reachable_inv hr).sortedV ih hfresh.2.1
  | addEdge g f t w hr ih =>
    have hinv := reachable_inv hr
    cases hf : getNode g f with
    | none => rw [addEdge_of_none g f t w (Or.inl hf)]; exact ih
    | some fp =>
      cases ht : getNode g t with
      | none => rw [addEdge_of_none g f t w (Or.inr ht)]; exact ih
      | some tp => rw [addEdge_of_some hinv w hf ht]; exact ih

theorem reachable_injective {g : WeightedGraph T} (h : Reachable g) {a b : T} {n : Nat}
    (ha : mapFind g.vertices a = some n) (hb : mapFind g.vertices b = some n) : a = b := by
  have := List.inj_on_of_nodup_map (reachable_nodup h) (mem_of_mapFind ha)
    (mem_of_mapFind hb) rfl
  exact congrArg Prod.fst this

theorem count_edge_ite (x c d : Nat) (w0 : Int) (u v : Nat) (w : Int) :
    List.count (⟨u, v, w⟩ : Edge) (if x = c then [(⟨c, d, w0⟩ : Edge)] else []) =
      if x = c ∧ u = c ∧ v = d ∧ w = w0 then 1 else 0 := by
  by_cases hx : x = c
  · by_cases he : u = c ∧ v = d ∧ w = w0
    · obtain ⟨rfl, rfl, rfl⟩ := he
      simp [hx]
    · have hne : ¬ ((⟨c, d, w0⟩ : Edge) = ⟨u, v, w⟩) := by
        intro h
        injection h with h1 h2 h3
        exact he ⟨h1.symm, h2.symm, h3.symm⟩
      rw [if_pos hx, if_neg (fun h => he h.2), List.count_singleton]
      simp [hne]
  · simp [hx]

theorem addEdge_vertices (g : WeightedGraph T) (f t : T) (w : Int) :
    (addEdge g f t w).2.vertices = g.vertices := by
  unfold addEdge
  split
  · simp only
    split
    · rfl
    · split <;> rfl
  · rfl

theorem step_keeps_registry {g : WeightedGraph T} (hs : Sorted g.vertices) {label : T}
    {n : Nat} (h : mapFind g.vertices label = some n) (c : Call T) :
    Sorted (step g c).vertices ∧ mapFind (step g c).vertices label = some n := by
  cases c with
  | addNode l node =>
    refine ⟨mapInsert_sorted hs, ?_⟩
    show mapFind (mapInsert g.vertices l node) label = some n
    by_cases hl : label = l
    · subst hl
      rw [mapInsert_of_mem hs (mem_keys_of_mem (mem_of_mapFind h))]
      exact h
    · rw [mapFind_mapInsert_ne hl]
      exact h
  | addEdge f t w =>
    show Sorted (addEdge g f t w).2.vertices ∧ mapFind (addEdge g f t w).2.vertices label = _
    rw [addEdge_vertices]
    exact ⟨hs, h⟩

theorem run_keeps_registry (calls : List (Call T)) {g : WeightedGraph T}
    (hs : Sorted g.vertices) {label : T} {n : Nat} (h : mapFind g.vertices label = some n) :
    mapFind (run g calls).vertices label = some n := by
  induction calls generalizing g with
  | nil => exact h
  | cons c rest ih =>
    obtain ⟨hs1, h1⟩ := step_keeps_registry hs h c
    exact ih hs1 h1

end GraphLemmas

theorem reachable_oneNode : Reachable oneNode :=
  Reachable.addNode empty 1 100 Reachable.empty (by decide)

theorem reachable_twoNodes : Reachable twoNodes :=
  Reachable.addNode oneNode 2 200 reachable_oneNode (by decide)

theorem reachable_oneEdge : Reachable oneEdge :=
  Reachable.addEdge twoNodes 1 2 7 reachable_twoNodes

/-! ## The claims -/

/-- C1 (fails on the code): `addEdge` does not reject an absent `from` label.
On the graph whose only label is 2, label 1 is not a key of the registry, yet
`addEdge(1, 2, 7)` returns normally and stores two entries, both on node 100. -/
theorem addEdge_absent_label_accepted :
    1 ∉ keys (addNode (empty : WeightedGraph Nat) 2 100).2.vertices ∧
    addEdge (addNode (empty : WeightedGraph Nat) 2 100).2 1 2 7
      = (Status.ok, ⟨[(2, 100)], [(100, [⟨100, 100, 7⟩, ⟨100, 100, 7⟩])]⟩) := by
  decide

/-- C2: in a reachable state where `from` and `to` are registry keys mapping to
`nf` and `nt`, `addEdge(from, to, w)` succeeds; both nodes are keys of the
adjacency store; when the labels differ the nodes differ, `(nf, nt, w)` is
appended at the end of the list of `nf` and `(nt, nf, w)` at the end of the list
of `nt`; when the labels are equal both entries are appended, in that order, to
the one list. -/
theorem addEdge_appends_mirrored (g : WeightedGraph T) (hr : Reachable g) (f t : T)
    (nf nt : Nat) (w : Int)
    (hf : mapFind g.vertices f = some nf) (ht : mapFind g.vertices t = some nt) :
    (addEdge g f t w).1 = Status.ok ∧
    nf ∈ keys g.adjacencyList ∧ nt ∈ keys g.adjacencyList ∧
    (f ≠ t → nf ≠ nt ∧
      adjOf (addEdge g f t w).2 nf = adjOf g nf ++ [⟨nf, nt, w⟩] ∧
      adjOf (addEdge g f t w).2 nt = adjOf g nt ++ [⟨nt, nf, w⟩]) ∧
    (f = t → nf = nt ∧
      adjOf (addEdge g f t w).2 nf = adjOf g nf ++ [⟨nf, nt, w⟩, ⟨nt, nf, w⟩]) := by
  have hinv := reachable_inv hr
  have hgf := getNode_of_mapFind hinv.sortedV hf
  have hgt := getNode_of_mapFind hinv.sortedV ht
  have hnf : nf ∈ values g.vertices := mem_values_of_mem (mem_of_mapFind hf)
  have hnt : nt ∈ values g.vertices := mem_values_of_mem (mem_of_mapFind ht)
  refine ⟨by rw [addEdge_of_some hinv w hgf hgt], hinv.regInAdj _ hnf,
    hinv.regInAdj _ hnt, ?_, ?_⟩
  · intro hne
    have hn : nf ≠ nt := fun h => hne (reachable_injective hr hf (h ▸ ht))
    refine ⟨hn, ?_, ?_⟩
    · rw [adjOf_addEdge hinv w hgf hgt]
      simp [hn]
    · rw [adjOf_addEdge hinv w hgf hgt]
      simp [Ne.symm hn]
  · intro he
    subst he
    have hn : nf = nt := Option.some.inj (hf.symm.trans ht)
    subst hn
    refine ⟨rfl, ?_⟩
    rw [adjOf_addEdge hinv w hgf hgt]
    simp

/-- Claim C2 at a concrete input, the two-node graph, for `addEdge(1, 2, 7)`. -/
theorem addEdge_appends_mirrored_witness :
    Reachable twoNodes ∧ mapFind twoNodes.vertices 1 = some 100 ∧
    mapFind twoNodes.vertices 2 = some 200 ∧
    (addEdge twoNodes 1 2 7).1 = Status.ok ∧
    100 ∈ keys twoNodes.adjacencyList ∧ 200 ∈ keys twoNodes.adjacencyList ∧
    ((1 : Nat) ≠ 2 → 100 ≠ 200 ∧
      adjOf (addEdge twoNodes 1 2 7).2 100 = adjOf twoNodes 100 ++ [⟨100, 200, 7⟩] ∧
      adjOf (addEdge twoNodes 1 2 7).2 200 = adjOf twoNodes 200 ++ [⟨200, 100, 7⟩]) ∧
    ((1 : Nat) = 2 → 100 = 200 ∧
      adjOf (addEdge twoNodes 1 2 7).2 100
        = adjOf twoNodes 100 ++ [⟨100, 200, 7⟩, ⟨200, 100, 7⟩]) :=
  ⟨reachable_twoNodes, by decide, by decide,
    addEdge_appends_mirrored twoNodes reachable_twoNodes 1 2 100 200 7
      (by decide) (by decide)⟩

/-- C3 (as stated, fails): on the one-node graph, whose registry contains
label 1, `addNode(1)` returns normally and the adjacency store grows by an entry
for the newly allocated node 200. -/
theorem addNode_duplicate_label_not_rejected :
    1 ∈ keys oneNode.vertices ∧ Fresh oneNode 200 ∧
    (addNode oneNode 1 200).1 = Status.ok ∧
    oneNode.adjacencyList = [(100, [])] ∧
    (addNode oneNode 1 200).2.adjacencyList = [(100, []), (200, [])] := by
  decide

/-- C3 (amended): for every graph whose registry, in key order, already
contains `label`, `addNode(label)` returns normally and leaves the registry
unchanged. -/
theorem addNode_duplicate_label_keeps_registry (g : WeightedGraph T) (label : T)
    (node : Nat) (hs : Sorted g.vertices) (h : label ∈ keys g.vertices) :
    (addNode g label node).1 = Status.ok ∧
    (addNode g label node).2.vertices = g.vertices :=
  ⟨rfl, mapInsert_of_mem hs h⟩

/-- The amended C3 at a concrete input, the one-node graph. -/
theorem addNode_duplicate_label_keeps_registry_witness :
    Sorted oneNode.vertices ∧ 1 ∈ keys oneNode.vertices ∧
    (addNode oneNode 1 200).1 = Status.ok ∧
    (addNode oneNode 1 200).2.vertices = oneNode.vertices :=
  ⟨by decide, by decide,
    addNode_duplicate_label_keeps_registry oneNode 1 200 (by decide) (by decide)⟩

/-- C4 (as stated, fails): on the two-node graph `addEdge(1, 2, -5)` returns
normally and both adjacency lists receive an entry of weight -5. -/
theorem addEdge_negative_weight_accepted :
    mapFind twoNodes.vertices 1 = some 100 ∧ mapFind twoNodes.vertices 2 = some 200 ∧
    addEdge twoNodes 1 2 (-5)
      = (Status.ok, ⟨[(1, 100), (2, 200)],
          [(100, [⟨100, 200, -5⟩]), (200, [⟨200, 100, -5⟩])]⟩) := by
  decide

/-- C4 (amended): in every reachable graph containing both `from` and `to`, for
every weight `w < 0`, `addEdge(from, to, w)` succeeds and stores the two mirrored
entries with the weight `w` as given. -/
theorem addEdge_negative_weight_stored (g : WeightedGraph T) (hr : Reachable g) (f t : T)
    (nf nt : Nat) (w : Int)
    (hf : mapFind g.vertices f = some nf) (ht : mapFind g.vertices t = some nt)
    (hw : w < 0) :
    (addEdge g f t w).1 = Status.ok ∧
    (⟨nf, nt, w⟩ : Edge) ∈ adjOf (addEdge g f t w).2 nf ∧
    (⟨nt, nf, w⟩ : Edge) ∈ adjOf (addEdge g f t w).2 nt ∧
    ∃ e ∈ adjOf (addEdge g f t w).2 nf, e.weight < 0 := by
  have hinv := reachable_inv hr
  have hgf := getNode_of_mapFind hinv.sortedV hf
  have hgt := getNode_of_mapFind hinv.sortedV ht
  have h1 : (⟨nf, nt, w⟩ : Edge) ∈ adjOf (addEdge g f t w).2 nf := by
    rw [adjOf_addEdge hinv w hgf hgt]
    simp
  refine ⟨by rw [addEdge_of_some hinv w hgf hgt], h1, ?_, ⟨_, h1, hw⟩⟩
  rw [adjOf_addEdge hinv w hgf hgt]
  simp

/-- The amended C4 at a concrete input, the two-node graph, for
`addEdge(1, 2, -5)`. -/
theorem addEdge_negative_weight_stored_witness :
    Reachable twoNodes ∧ mapFind twoNodes.vertices 1 = some 100 ∧
    mapFind twoNodes.vertices 2 = some 200 ∧ (-5 : Int) < 0 ∧
    (addEdge twoNodes 1 2 (-5)).1 = Status.ok ∧
    (⟨100, 200, -5⟩ : Edge) ∈ adjOf (addEdge twoNodes 1 2 (-5)).2 100 ∧
    (⟨200, 100, -5⟩ : Edge) ∈ adjOf (addEdge twoNodes 1 2 (-5)).2 200 ∧
    ∃ e ∈ adjOf (addEdge twoNodes 1 2 (-5)).2 100, e.weight < 0 :=
  ⟨reachable_twoNodes, by decide, by decide, by decide,
    addEdge_negative_weight_stored twoNodes reachable_twoNodes 1 2 100 200 (-5)
      (by decide) (by decide) (by decide)⟩

/-- C5 (fails on the code): after `addNode(1); addNode(1)`, the second node
allocated at the fresh address 200, the registry holds the one node 100 while
the adjacency store has the two keys 100 and 200. -/
theorem addNode_repeat_desynchronises :
    Fresh (empty : WeightedGraph Nat) 100 ∧
    Fresh (addNode (empty : WeightedGraph Nat) 1 100).2 200 ∧
    addNodes (empty : WeightedGraph Nat) [(1, 100), (1, 200)]
      = ⟨[(1, 100)], [(100, []), (200, [])]⟩ ∧
    values (addNodes (empty : WeightedGraph Nat) [(1, 100), (1, 200)]).vertices = [100] ∧
    keys (addNodes (empty : WeightedGraph Nat) [(1, 100), (1, 200)]).adjacencyList
      = [100, 200] := by
  decide

/-- C6: whenever `addEdge(from, to, w)` throws, whatever the state and the
arguments, the registry and the adjacency store are exactly as before the call. -/
theorem addEdge_throw_leaves_state (g : WeightedGraph T) (f t : T) (w : Int)
    (h : (addEdge g f t w).1 = Status.invalidArgument) : (addEdge g f t w).2 = g := by
  cases hf : getNode g f with
  | none => rw [addEdge_of_none g f t w (Or.inl hf)]
  | some fp =>
    cases ht : getNode g t with
    | none => rw [addEdge_of_none g f t w (Or.inr ht)]
    | some tp =>
      exfalso
      unfold addEdge at h
      rw [hf, ht] at h
      simp only at h
      split at h
      · exact Status.noConfusion h
      · split at h <;> exact Status.noConfusion h

/-- Claim C6 at a concrete input: on the one-node graph `addEdge(1, 5, 3)`
throws, as no registry key is at or above 5. -/
theorem addEdge_throw_leaves_state_witness :
    (addEdge oneNode 1 5 3).1 = Status.invalidArgument ∧ (addEdge oneNode 1 5 3).2 = oneNode :=
  ⟨by decide, addEdge_throw_leaves_state oneNode 1 5 3 (by decide)⟩

/-- C7: in every reachable state, every edge entry stored in the adjacency list
of a node `n` has `from = n`, and its `from` and `to` nodes are both held in the
registry. -/
theorem reachable_edge_endpoints (g : WeightedGraph T) (hr : Reachable g) (n : Nat)
    (l : List Edge) (hl : (n, l) ∈ g.adjacencyList) (e : Edge) (he : e ∈ l) :
    e.from_ = n ∧ e.from_ ∈ values g.vertices ∧ e.to_ ∈ values g.vertices :=
  (reachable_inv hr).edges (n, l) hl e he

/-- Claim C7 at a concrete input: the entry (100, 200, 7) in the list of
node 100 of the one-edge graph. -/
theorem reachable_edge_endpoints_witness :
    Reachable oneEdge ∧ (100, [(⟨100, 200, 7⟩ : Edge)]) ∈ oneEdge.adjacencyList ∧
    (⟨100, 200, 7⟩ : Edge).from_ = 100 ∧
    (⟨100, 200, 7⟩ : Edge).from_ ∈ values oneEdge.vertices ∧
    (⟨100, 200, 7⟩ : Edge).to_ ∈ values oneEdge.vertices :=
  ⟨reachable_oneEdge, by decide,
    reachable_edge_endpoints oneEdge reachable_oneEdge 100 [⟨100, 200, 7⟩] (by decide)
      ⟨100, 200, 7⟩ (by decide)⟩

/-- C8: in every reachable state, for all nodes `u`, `v` and every weight `w`,
the list of `u` holds as many entries `(u, v, w)` as the list of `v` holds
entries `(v, u, w)`. -/
theorem reachable_mirror (g : WeightedGraph T) (hr : Reachable g) (u v : Nat) (w : Int) :
    (adjOf g u).count ⟨u, v, w⟩ = (adjOf g v).count ⟨v, u, w⟩ := by
  induction hr with
  | empty => rfl
  | addNode g label node _ hfresh ih =>
    rw [adjOf_addNode label hfresh.1, adjOf_addNode label hfresh.1]
    exact ih
  | addEdge g f t w0 hr ih =>
    have hinv := reachable_inv hr
    cases hf : getNode g f with
    | none => rw [addEdge_of_none g f t w0 (Or.inl hf)]; exact ih
    | some fp =>
      cases ht : getNode g t with
      | none => rw [addEdge_of_none g f t w0 (Or.inr ht)]; exact ih
      | some tp =>
        rw [adjOf_addEdge hinv w0 hf ht, adjOf_addEdge hinv w0 hf ht]
        simp only [List.count_append, count_edge_ite]
        rw [ih]
        have h1 : (if u = fp.2 ∧ u = fp.2 ∧ v = tp.2 ∧ w = w0 then 1 else 0 : Nat) =
            if v = tp.2 ∧ v = tp.2 ∧ u = fp.2 ∧ w = w0 then 1 else 0 :=
          if_congr (by tauto) rfl rfl
        have h2 : (if u = tp.2 ∧ u = tp.2 ∧ v = fp.2 ∧ w = w0 then 1 else 0 : Nat) =
            if v = fp.2 ∧ v = fp.2 ∧ u = tp.2 ∧ w = w0 then 1 else 0 :=
          if_congr (by tauto) rfl rfl
        rw [h1, h2]
        omega

/-- Claim C8 at a concrete input, the one-edge graph: one entry (100, 200, 7)
in the list of node 100 and one entry (200, 100, 7) in the list of node 200. -/
theorem reachable_mirror_witness :
    Reachable oneEdge ∧ (adjOf oneEdge 100).count ⟨100, 200, 7⟩ = 1 ∧
    (adjOf oneEdge 100).count ⟨100, 200, 7⟩ = (adjOf oneEdge 200).count ⟨200, 100, 7⟩ :=
  ⟨reachable_oneEdge, by decide, reachable_mirror oneEdge reachable_oneEdge 100 200 7⟩

/-- C9: on a graph whose registry does not contain `label`, `addNode(label)`
with the fresh node `n` returns normally, adds exactly the registry entry
`label -> n` and exactly the adjacency entry `n -> []`, and every other
registry entry and every other adjacency list is as before. -/
theorem addNode_new_label (g : WeightedGraph T) (label : T) (node : Nat)
    (hl : label ∉ keys g.vertices) (hfresh : Fresh g node) :
    (addNode g label node).1 = Status.ok ∧
    List.Perm (addNode g label node).2.vertices ((label, node) :: g.vertices) ∧
    List.Perm (addNode g label node).2.adjacencyList ((node, []) :: g.adjacencyList) ∧
    mapFind (addNode g label node).2.vertices label = some node ∧
    mapFind (addNode g label node).2.adjacencyList node = some [] ∧
    (∀ x, x ≠ label → mapFind (addNode g label node).2.vertices x = mapFind g.vertices x) ∧
    (∀ x, x ≠ node →
      mapFind (addNode g label node).2.adjacencyList x = mapFind g.adjacencyList x) :=
  ⟨rfl, mapInsert_perm hl, mapInsert_perm hfresh.1, mapFind_mapInsert_self hl,
    mapFind_mapInsert_self hfresh.1, fun _ hx => mapFind_mapInsert_ne hx,
    fun _ hx => mapFind_mapInsert_ne hx⟩

/-- Claim C9 at a concrete input: `addNode(2)` on the one-node graph, the node
allocated at 200. -/
theorem addNode_new_label_witness :
    2 ∉ keys oneNode.vertices ∧ Fresh oneNode 200 ∧
    (addNode oneNode 2 200).1 = Status.ok ∧
    List.Perm (addNode oneNode 2 200).2.vertices ((2, 200) :: oneNode.vertices) ∧
    List.Perm (addNode oneNode 2 200).2.adjacencyList ((200, []) :: oneNode.adjacencyList) ∧
    mapFind (addNode oneNode 2 200).2.vertices 2 = some 200 ∧
    mapFind (addNode oneNode 2 200).2.adjacencyList 200 = some [] ∧
    (∀ x, x ≠ 2 →
      mapFind (addNode oneNode 2 200).2.vertices x = mapFind oneNode.vertices x) ∧
    (∀ x, x ≠ 200 →
      mapFind (addNode oneNode 2 200).2.adjacencyList x = mapFind oneNode.adjacencyList x) :=
  ⟨by decide, by decide, addNode_new_label oneNode 2 200 (by decide) (by decide)⟩

/-- C10: in every reachable state every node held in the registry is a key of
the adjacency store; hence for the two nodes `addEdge` found, the first lookup
hits the entry keyed by exactly the `from` node and the `push_back` through it
succeeds, the second lookup (on the store after that `push_back`) hits the
entry keyed by exactly the `to` node, and the call never dereferences `end()`. -/
theorem reachable_adjacency_lookup_hits (g : WeightedGraph T) (hr : Reachable g) :
    (∀ n ∈ values g.vertices, n ∈ keys g.adjacencyList) ∧
    (∀ (f t : T) (w : Int) (fp tp : T × Nat),
      getNode g f = some fp → getNode g t = some tp →
      ∃ adj1, lowerBoundPushBack g.adjacencyList fp.2 (⟨fp.2, tp.2, w⟩ : Edge) = some adj1 ∧
        (∃ l, lowerBound g.adjacencyList fp.2 = some (fp.2, l)) ∧
        (∃ l, lowerBound adj1 tp.2 = some (tp.2, l)) ∧
        (∃ adj2, lowerBoundPushBack adj1 tp.2 (⟨tp.2, fp.2, w⟩ : Edge) = some adj2)) ∧
    (∀ (f t : T) (w : Int), (addEdge g f t w).1 ≠ Status.undefinedBehaviour) := by
  have hinv := reachable_inv hr
  refine ⟨hinv.regInAdj, ?_, ?_⟩
  · intro f t w fp tp hf ht
    have hfk : fp.2 ∈ keys g.adjacencyList :=
      hinv.regInAdj _ (mem_values_of_mem (lowerBound_mem hf))
    have hs1 : Sorted (pushAt g.adjacencyList fp.2 (⟨fp.2, tp.2, w⟩ : Edge)) := by
      unfold Sorted
      rw [keys_pushAt]
      exact hinv.sortedA
    have htk : tp.2 ∈ keys (pushAt g.adjacencyList fp.2 (⟨fp.2, tp.2, w⟩ : Edge)) := by
      rw [keys_pushAt]
      exact hinv.regInAdj _ (mem_values_of_mem (lowerBound_mem ht))
    exact ⟨_, lowerBoundPushBack_of_mem _ hinv.sortedA hfk,
      lowerBound_key_of_mem hinv.sortedA hfk, lowerBound_key_of_mem hs1 htk,
      _, lowerBoundPushBack_of_mem _ hs1 htk⟩
  · intro f t w
    cases hf : getNode g f with
    | none => rw [addEdge_of_none g f t w (Or.inl hf)]; exact fun h => Status.noConfusion h
    | some fp =>
      cases ht : getNode g t with
      | none => rw [addEdge_of_none g f t w (Or.inr ht)]; exact fun h => Status.noConfusion h
      | some tp => rw [addEdge_of_some hinv w hf ht]; exact fun h => Status.noConfusion h

/-- Claim C10 at a concrete input, the one-edge graph. -/
theorem reachable_adjacency_lookup_hits_witness :
    Reachable oneEdge ∧ 200 ∈ keys oneEdge.adjacencyList ∧
    (addEdge oneEdge 2 1 3).1 ≠ Status.undefinedBehaviour :=
  ⟨reachable_oneEdge,
    (reachable_adjacency_lookup_hits oneEdge reachable_oneEdge).1 200 (by decide),
    (reachable_adjacency_lookup_hits oneEdge reachable_oneEdge).2.2 2 1 3⟩

/-- C11: in a reachable state where `label` maps to node `n`, the registry
still maps `label` to `n` after every sequence of subsequent `addNode` calls
(whatever their labels, `label` itself included) and `addEdge` calls; and two
distinct labels of the registry map to distinct nodes. -/
theorem stable_node_identity (g : WeightedGraph T) (hr : Reachable g) (label : T) (n : Nat)
    (h : mapFind g.vertices label = some n) :
    (∀ calls : List (Call T), mapFind (run g calls).vertices label = some n) ∧
    (∀ (l : T) (m : Nat), mapFind g.vertices l = some m → l ≠ label → m ≠ n) :=
  ⟨fun calls => run_keeps_registry calls (reachable_inv hr).sortedV h,
    fun _ _ hl hne hmn => hne (reachable_injective hr (hmn ▸ hl) h)⟩

/-- Claim C11 at a concrete input: label 1 of the two-node graph keeps node 100
through `addNode(1)`, `addEdge(1, 2, 7)` and `addNode(0)`. -/
theorem stable_node_identity_witness :
    Reachable twoNodes ∧ mapFind twoNodes.vertices 1 = some 100 ∧
    mapFind (run twoNodes [Call.addNode 1 300, Call.addEdge 1 2 7,
      Call.addNode 0 400]).vertices 1 = some 100 ∧
    (mapFind twoNodes.vertices 2 = some 200 → (2 : Nat) ≠ 1 → 200 ≠ 100) :=
  ⟨reachable_twoNodes, by decide,
    (stable_node_identity twoNodes reachable_twoNodes 1 100 (by decide)).1 _,
    (stable_node_identity twoNodes reachable_twoNodes 1 100 (by decide)).2 2 200⟩

/-- C19: in a reachable state a successful `addEdge(from, to, w)` leaves the
registry and the set of adjacency-store keys unchanged; every adjacency list
other than those of the two endpoint nodes is unchanged; and every list, those
of the endpoints included, keeps its previous entries in order as a start
of the new list, the endpoint lists growing by the new entries. -/
theorem addEdge_frame (g : WeightedGraph T) (hr : Reachable g) (f t : T) (w : Int)
    (hok : (addEdge g f t w).1 = Status.ok) :
    (addEdge g f t w).2.vertices = g.vertices ∧
    keys (addEdge g f t w).2.adjacencyList = keys g.adjacencyList ∧
    ∃ fp tp, getNode g f = some fp ∧ getNode g t = some tp ∧
      (∀ x, x ≠ fp.2 → x ≠ tp.2 →
        mapFind (addEdge g f t w).2.adjacencyList x = mapFind g.adjacencyList x) ∧
      (∀ x, adjOf g x <+: adjOf (addEdge g f t w).2 x) ∧
      (adjOf g fp.2).length < (adjOf (addEdge g f t w).2 fp.2).length ∧
      (adjOf g tp.2).length < (adjOf (addEdge g f t w).2 tp.2).length := by
  have hinv := reachable_inv hr
  cases hf : getNode g f with
  | none =>
    rw [addEdge_of_none g f t w (Or.inl hf)] at hok
    exact Status.noConfusion hok
  | some fp =>
    cases ht : getNode g t with
    | none =>
      rw [addEdge_of_none g f t w (Or.inr ht)] at hok
      exact Status.noConfusion hok
    | some tp =>
      refine ⟨addEdge_vertices g f t w, ?_, fp, tp, rfl, rfl, ?_, ?_, ?_, ?_⟩
      · rw [addEdge_of_some hinv w hf ht]
        show keys (pushAt (pushAt g.adjacencyList _ _) _ _) = _
        rw [keys_pushAt, keys_pushAt]
      · intro x h1 h2
        rw [addEdge_of_some hinv w hf ht]
        show mapFind (pushAt (pushAt g.adjacencyList _ _) _ _) x = _
        rw [mapFind_pushAt, if_neg h2, mapFind_pushAt, if_neg h1]
      · intro x
        rw [adjOf_addEdge hinv w hf ht, List.append_assoc]
        exact List.prefix_append _ _
      · rw [adjOf_addEdge hinv w hf ht]
        simp
      · rw [adjOf_addEdge hinv w hf ht]
        simp

/-- Claim C19 at a concrete input: `addEdge(1, 2, 7)` repeated on the one-edge
graph, which yields a second, parallel entry in each endpoint list. -/
theorem addEdge_frame_witness :
    Reachable oneEdge ∧ (addEdge oneEdge 1 2 7).1 = Status.ok ∧
    adjOf (addEdge oneEdge 1 2 7).2 100 = [⟨100, 200, 7⟩, ⟨100, 200, 7⟩] ∧
    (addEdge oneEdge 1 2 7).2.vertices = oneEdge.vertices ∧
    keys (addEdge oneEdge 1 2 7).2.adjacencyList = keys oneEdge.adjacencyList :=
  ⟨reachable_oneEdge, by decide, by decide,
    (addEdge_frame oneEdge reachable_oneEdge 1 2 7 (by decide)).1,
    (addEdge_frame oneEdge reachable_oneEdge 1 2 7 (by decide)).2.1⟩

/-- C13: for every node `s` of a graph the shortest distance from `s` to `s` is
0; and on the graph with nodes A, B, C, D and edges A-B (1), B-C (2), A-C (4),
`getShortestDistance(A, C)` returns the total weight 3 with the path A, B, C. -/
theorem shortest_distance_self_and_scenario :
    (∀ (g : WeightedGraph T) (s : T) (n : Nat), mapFind g.vertices s = some n →
      ∃ p, getShortestDistance g s s = PathResult.ok p ∧ p.total = 0) ∧
    getShortestDistance scenarioABCD 'A' 'C' = PathResult.ok ⟨['A', 'B', 'C'], 3⟩ := by
  refine ⟨?_, by decide⟩
  intro g s n hs
  refine ⟨⟨buildPath g n [], 0⟩, ?_, rfl⟩
  unfold getShortestDistance
  rw [hs]
  simp [searchLoop, extractMin, minEntry, mapFind]

/-- Claim C13 at a concrete input: the distance from D to D in the scenario
graph. -/
theorem shortest_distance_self_and_scenario_witness :
    mapFind scenarioABCD.vertices 'D' = some 400 ∧
    ∃ p, getShortestDistance scenarioABCD 'D' 'D' = PathResult.ok p ∧ p.total = 0 :=
  ⟨by decide, shortest_distance_self_and_scenario.1 scenarioABCD 'D' 400 (by decide)⟩

/-- C22: in a reachable state `addEdge(from, to, w)` succeeds iff the registry has
some key not less than `from` and some key not less than `to`; on success the
two stored entries join the nodes of the least registry key not less than `from`
and of the least registry key not less than `to`; and that least key is the
label itself exactly when the label is present. -/
theorem addEdge_lower_bound (g : WeightedGraph T) (hr : Reachable g) (f t : T) (w : Int) :
    ((addEdge g f t w).1 = Status.ok ↔
      (∃ k ∈ keys g.vertices, f ≤ k) ∧ (∃ k ∈ keys g.vertices, t ≤ k)) ∧
    (∀ pf pt : T × Nat, LeastKeyGE g.vertices f pf → LeastKeyGE g.vertices t pt →
      addEdge g f t w = (Status.ok, ⟨g.vertices,
        pushAt (pushAt g.adjacencyList pf.2 ⟨pf.2, pt.2, w⟩) pt.2 ⟨pt.2, pf.2, w⟩⟩) ∧
      (⟨pf.2, pt.2, w⟩ : Edge) ∈ adjOf (addEdge g f t w).2 pf.2 ∧
      (⟨pt.2, pf.2, w⟩ : Edge) ∈ adjOf (addEdge g f t w).2 pt.2 ∧
      (∀ x, x ≠ pf.2 → x ≠ pt.2 → adjOf (addEdge g f t w).2 x = adjOf g x) ∧
      (pf.1 = f ↔ f ∈ keys g.vertices) ∧ (pt.1 = t ↔ t ∈ keys g.vertices)) := by
  have hinv := reachable_inv hr
  have hpresent : ∀ (l : T) (p : T × Nat), LeastKeyGE g.vertices l p →
      (p.1 = l ↔ l ∈ keys g.vertices) := by
    intro l p hp
    constructor
    · intro e
      exact e ▸ mem_keys_of_mem hp.1
    · intro hl
      obtain ⟨q, hq, rfl⟩ := List.mem_map.mp hl
      exact le_antisymm (hp.2.2 q hq (le_refl _)) hp.2.1
  have hsome : ∀ l : T, (∃ k ∈ keys g.vertices, l ≤ k) ↔ ∃ p, getNode g l = some p := by
    intro l
    constructor
    · rintro ⟨k, hk, hle⟩
      cases hn : getNode g l with
      | some p => exact ⟨p, rfl⟩
      | none =>
        obtain ⟨q, hq, rfl⟩ := List.mem_map.mp hk
        exact absurd (lowerBound_eq_none_iff.mp hn q hq) (not_lt.mpr hle)
    · rintro ⟨p, hp⟩
      exact ⟨p.1, mem_keys_of_mem (lowerBound_mem hp), not_lt.mp (lowerBound_not_lt hp)⟩
  refine ⟨?_, fun pf pt hpf hpt => ?_⟩
  · rw [hsome f, hsome t]
    constructor
    · intro hok
      cases hf : getNode g f with
      | none =>
        rw [addEdge_of_none g f t w (Or.inl hf)] at hok
        exact Status.noConfusion hok
      | some fp =>
        cases ht : getNode g t with
        | none =>
          rw [addEdge_of_none g f t w (Or.inr ht)] at hok
          exact Status.noConfusion hok
        | some tp => exact ⟨⟨fp, rfl⟩, ⟨tp, rfl⟩⟩
    · rintro ⟨⟨fp, hf⟩, ⟨tp, ht⟩⟩
      rw [addEdge_of_some hinv w hf ht]
  · have hf : getNode g f = some pf := (lowerBound_eq_some_iff hinv.sortedV).mpr hpf
    have ht : getNode g t = some pt := (lowerBound_eq_some_iff hinv.sortedV).mpr hpt
    refine ⟨addEdge_of_some hinv w hf ht, ?_, ?_, fun x h1 h2 => ?_, hpresent f pf hpf,
      hpresent t pt hpt⟩
    · rw [adjOf_addEdge hinv w hf ht]
      simp
    · rw [adjOf_addEdge hinv w hf ht]
      simp
    · rw [adjOf_addEdge hinv w hf ht]
      simp [h1, h2]

/-- Claim C22 at a concrete input: `addEdge(0, 2, 7)` on the two-node graph with
labels 1 and 2, where label 0 is absent and the least key not less than 0 is 1. -/
theorem addEdge_lower_bound_witness :
    Reachable twoNodes ∧ LeastKeyGE twoNodes.vertices 0 (1, 100) ∧
    LeastKeyGE twoNodes.vertices 2 (2, 200) ∧ 0 ∉ keys twoNodes.vertices ∧
    (addEdge twoNodes 0 2 7).1 = Status.ok ∧
    (⟨100, 200, 7⟩ : Edge) ∈ adjOf (addEdge twoNodes 0 2 7).2 100 ∧
    (⟨200, 100, 7⟩ : Edge) ∈ adjOf (addEdge twoNodes 0 2 7).2 200 :=
  ⟨reachable_twoNodes, by decide, by decide, by decide,
    (addEdge_lower_bound twoNodes reachable_twoNodes 0 2 7).1.mpr
      ⟨⟨1, by decide, by decide⟩, ⟨2, by decide, by decide⟩⟩,
    ((addEdge_lower_bound twoNodes reachable_twoNodes 0 2 7).2 (1, 100) (2, 200)
      (by decide) (by decide)).2.1,
    ((addEdge_lower_bound twoNodes reachable_twoNodes 0 2 7).2 (1, 100) (2, 200)
      (by decide) (by decide)).2.2.1⟩

end WeightedGraph

namespace BinaryTree

section TreeLemmas

variable {T : Type} [LinearOrder T]

theorem mem_elems_insertNode (t : Node T) (x y : T) :
    y ∈ elems (insertNode t x) ↔ y = x ∨ y ∈ elems t := by
  induction t with
  | null => simp [insertNode, elems]
  | node v l r ihl ihr =>
    simp only [insertNode]
    split
    · simp only [elems, List.mem_append, List.mem_cons, ihl]
      tauto
    · simp only [elems, List.mem_append, List.mem_cons, ihr]
      tauto

theorem isBST_insertNode (t : Node T) (x : T) (h : IsBST t) : IsBST (insertNode t x) := by
  induction t with
  | null => simp [insertNode, IsBST, elems]
  | node v l r ihl ihr =>
    obtain ⟨h1, h2, h3, h4⟩ := h
    simp only [insertNode]
    split
    · rename_i hlt
      refine ⟨?_, h2, ihl h3, h4⟩
      intro y hy
      rcases (mem_elems_insertNode l x y).mp hy with rfl | hy
      · exact hlt
      · exact h1 y hy
    · rename_i hlt
      refine ⟨h1, ?_, h3, ihr h4⟩
      intro y hy
      rcases (mem_elems_insertNode r x y).mp hy with rfl | hy
      · exact not_lt.mp hlt
      · exact h2 y hy

theorem findNode_iff (t : Node T) (x : T) (h : IsBST t) :
    findNode t x = true ↔ x ∈ elems t := by
  induction t with
  | null => simp [findNode, elems]
  | node v l r ihl ihr =>
    obtain ⟨h1, h2, h3, h4⟩ := h
    simp only [findNode, elems, List.mem_append, List.mem_cons]
    by_cases hv : v = x
    · simp [hv]
    · rw [if_neg hv]
      by_cases hlt : x < v
      · rw [if_pos hlt, ihl h3]
        constructor
        · exact Or.inl
        · rintro (hx | hx | hx)
          · exact hx
          · exact absurd hx.symm hv
          · exact absurd (h2 x hx) (not_le.mpr hlt)
      · rw [if_neg hlt, ihr h4]
        constructor
        · exact fun hx => Or.inr (Or.inr hx)
        · rintro (hx | hx | hx)
          · exact absurd (h1 x hx) hlt
          · exact absurd hx.symm hv
          · exact hx

theorem foldl_insert_spec (items : List T) (t : Tree T) (h : IsBST t.root) :
    IsBST (items.foldl Tree.insert t).root ∧
    ∀ y, y ∈ elems (items.foldl Tree.insert t).root ↔ y ∈ items ∨ y ∈ elems t.root := by
  induction items generalizing t with
  | nil => simp [h]
  | cons a rest ih =>
    obtain ⟨hb, hm⟩ := ih (t.insert a) (isBST_insertNode t.root a h)
    refine ⟨hb, ?_⟩
    intro y
    rw [List.foldl_cons, hm y]
    show y ∈ rest ∨ y ∈ elems (insertNode t.root a) ↔ _
    rw [mem_elems_insertNode, List.mem_cons]
    tauto

end TreeLemmas

variable {T : Type} [LinearOrder T]

/-- C15: for every finite sequence of `insert` calls on an initially empty tree
and every item `x`, `find(x)` returns true if `x` occurs in the sequence and
false otherwise. -/
theorem find_build (items : List T) (x : T) :
    (Tree.build items).find x = decide (x ∈ items) := by
  obtain ⟨hb, hm⟩ := foldl_insert_spec items (Tree.empty : Tree T) trivial
  have h := findNode_iff (Tree.build items).root x hb
  have h2 : x ∈ elems (Tree.build items).root ↔ x ∈ items := by
    rw [show (Tree.build items) = items.foldl Tree.insert Tree.empty from rfl, hm x]
    simp [Tree.empty, elems]
  unfold Tree.find
  by_cases hx : x ∈ items
  · rw [decide_eq_true hx]
    exact h.mpr (h2.mpr hx)
  · rw [decide_eq_false hx]
    cases hf : findNode (Tree.build items).root x with
    | false => rfl
    | true => exact absurd (h2.mp (h.mp hf)) hx

/-- C17 (fails on the code): after `insert(1); insert(2)` the root has a right
child only; the tree is not empty, yet `height()` calls `height(nullptr)` for
the missing left child, whose `isLeaf` test dereferences `nullptr`. -/
theorem height_one_child_undefined :
    (Tree.build [1, 2] : Tree Nat)
      = ⟨Node.node 1 Node.null (Node.node 2 Node.null Node.null), 2⟩ ∧
    (Tree.build [1, 2] : Tree Nat).isEmpty = false ∧
    (Tree.build [1, 2] : Tree Nat).height = Result.nullDereference := by
  decide

/-- C18 (fails on the code): the trees built by `insert(2); insert(1)` and by
`insert(2); insert(3)` have the same size and different shapes; `equals` reaches
the pair (left child 1, `nullptr`) and reads the `value` of the `nullptr`
instead of returning false. -/
theorem equals_shape_mismatch_undefined :
    (Tree.build [2, 1] : Tree Nat) ≠ Tree.build [2, 3] ∧
    (Tree.build [2, 1] : Tree Nat).mSize = (Tree.build [2, 3] : Tree Nat).mSize ∧
    (Tree.build [2, 1] : Tree Nat).equals (Tree.build [2, 3]) = Result.nullDereference := by
  decide

end BinaryTree

namespace Exercises

theorem isOpening_of_pair {o c : Char} (h : (o, c) ∈ bracketPairs) : isOpening o = true := by
  simp only [bracketPairs, List.mem_cons, Prod.mk.injEq, List.mem_singleton,
    List.not_mem_nil, or_false] at h
  rcases h with ⟨rfl, _⟩ | ⟨rfl, _⟩ | ⟨rfl, _⟩ <;> decide

theorem closing_rejected {o c : Char} (ho : isOpening o = true)
    {o' : Char} (hc : (o', c) ∈ bracketPairs) :
    isOpening c = false ∧ distanceOk o c = false := by
  have ho' : o = '(' ∨ o = '[' ∨ o = '<' := by
    simp only [isOpening, Bool.or_eq_true, beq_iff_eq] at ho
    tauto
  simp only [bracketPairs, List.mem_cons, Prod.mk.injEq, List.mem_singleton,
    List.not_mem_nil, or_false] at hc
  rcases ho' with rfl | rfl | rfl <;>
    rcases hc with ⟨_, rfl⟩ | ⟨_, rfl⟩ | ⟨_, rfl⟩ <;> decide

theorem nested_shape {s : List Char} (h : Nested s) (hne : s ≠ []) :
    ∃ (os : List Char) (top c o' : Char) (rest : List Char),
      s = os ++ top :: c :: rest ∧ (∀ x ∈ os, isOpening x = true) ∧
        isOpening top = true ∧ (o', c) ∈ bracketPairs := by
  induction h with
  | nil => exact absurd rfl hne
  | wrap o c s t hp hs _ ihs _ =>
    by_cases hs0 : s = []
    · subst hs0
      exact ⟨[], o, c, o, t, rfl, by simp, isOpening_of_pair hp, hp⟩
    · obtain ⟨os, top, c', o', rest, rfl, hos, htop, hc⟩ := ihs hs0
      refine ⟨o :: os, top, c', o', rest ++ c :: t, by simp, ?_, htop, hc⟩
      intro x hx
      rcases List.mem_cons.mp hx with rfl | hx
      · exact isOpening_of_pair hp
      · exact hos x hx

theorem isBalancedLoop_push (str : List Char) (c : Char) (rest stack : List Char)
    (h : isOpening c = true) :
    isBalancedLoop str (c :: rest) stack = isBalancedLoop str rest (c :: stack) := by
  simp only [isBalancedLoop, h, if_true]

theorem isBalancedLoop_reject (str : List Char) (c current : Char)
    (rest below : List Char) (h1 : isOpening c = false) (h2 : c ∈ str)
    (h3 : distanceOk current c = false) :
    isBalancedLoop str (c :: rest) (current :: below) = some false := by
  simp [isBalancedLoop, h1, h2, h3]

theorem isBalancedLoop_openers (str os tail stack : List Char)
    (h : ∀ x ∈ os, isOpening x = true) :
    isBalancedLoop str (os ++ tail) stack = isBalancedLoop str tail (os.reverse ++ stack) := by
  induction os generalizing stack with
  | nil => rfl
  | cons a rest ih =>
    have ha : isOpening a = true := h a (List.mem_cons_self _ _)
    rw [List.cons_append, isBalancedLoop_push str a _ stack ha,
      ih (a :: stack) (fun x hx => h x (List.mem_cons_of_mem _ hx))]
    simp

/-- C20: for every non-empty properly nested string over the bracket pairs
`()`, `[]` and `<>`, `isBalanced` returns false: at the first closing character
the popped opener minus the closer is neither 1 nor 2. -/
theorem isBalanced_nested_false (s : List Char) (h : Nested s) (hne : s ≠ []) :
    isBalanced s = some false := by
  obtain ⟨os, top, c, o', rest, hs, hos, htop, hc⟩ := nested_shape h hne
  obtain ⟨hc1, hc2⟩ := closing_rejected htop hc
  have hmem : c ∈ s := by rw [hs]; simp
  have hrun : isBalancedLoop s s [] = isBalancedLoop s (os ++ top :: c :: rest) [] :=
    congrArg (fun l => isBalancedLoop s l []) hs
  unfold isBalanced
  rw [hrun, isBalancedLoop_openers s os _ [] hos, isBalancedLoop_push s top _ _ htop,
    isBalancedLoop_reject s c top rest _ hc1 hmem hc2]

/-- Claim C20 at a concrete input, the string `()`. -/
theorem isBalanced_nested_false_witness :
    Nested ['(', ')'] ∧ ['(', ')'] ≠ [] ∧ isBalanced ['(', ')'] = some false :=
  ⟨Nested.wrap '(' ')' [] [] (by decide) Nested.nil Nested.nil, by decide,
    isBalanced_nested_false ['(', ')']
      (Nested.wrap '(' ')' [] [] (by decide) Nested.nil Nested.nil) (by decide)⟩

end Exercises

namespace AVLTree

section AVLLemmas

variable {T : Type}

theorem trueHeight_ge (t : AVLNode T) : -1 ≤ trueHeight t := by
  cases t with
  | null => simp [trueHeight]
  | node v h l r =>
    have := trueHeight_ge l
    simp only [trueHeight]
    omega

theorem getHeight_eq {t : AVLNode T} (h : HeightsOk t) : getHeight t = trueHeight t := by
  cases t with
  | null => rfl
  | node v ht l r => exact h.1

theorem heightsOk_withHeight (v : T) {l r : AVLNode T} (hl : HeightsOk l) (hr : HeightsOk r) :
    HeightsOk (withHeight v l r) := by
  refine ⟨?_, hl, hr⟩
  rw [getHeight_eq hl, getHeight_eq hr]
  have := trueHeight_ge l
  have := trueHeight_ge r
  omega

theorem trueHeight_withHeight (v : T) (l r : AVLNode T) :
    trueHeight (withHeight v l r) = max (trueHeight l) (trueHeight r) + 1 := rfl

theorem balanced_withHeight (v : T) {l r : AVLNode T} (hl : Balanced l) (hr : Balanced r)
    (h1 : trueHeight l - trueHeight r ≤ 1) (h2 : trueHeight r - trueHeight l ≤ 1) :
    Balanced (withHeight v l r) := ⟨h1, h2, hl, hr⟩

/-- What `balance` does to a node whose `height` member has just been assigned and
whose subtrees are balanced, carry true heights and differ in height by at most 2. -/
theorem balance_spec (v : T) {l r : AVLNode T} (hl : HeightsOk l) (hr : HeightsOk r)
    (bl : Balanced l) (br : Balanced r)
    (h1 : trueHeight l - trueHeight r ≤ 2) (h2 : trueHeight r - trueHeight l ≤ 2) :
    ∃ t, balance (withHeight v l r) = some t ∧ HeightsOk t ∧ Balanced t ∧
      max (trueHeight l) (trueHeight r) ≤ trueHeight t ∧
      trueHeight t ≤ max (trueHeight l) (trueHeight r) + 1 ∧
      (trueHeight l - trueHeight r ≤ 1 → trueHeight r - trueHeight l ≤ 1 →
        trueHeight t = max (trueHeight l) (trueHeight r) + 1) := by
  have gl := getHeight_eq hl
  have gr := getHeight_eq hr
  have tl := trueHeight_ge l
  have tr := trueHeight_ge r
  by_cases hA : trueHeight l - trueHeight r > 1
  · cases l with
    | null => simp only [trueHeight] at hA; omega
    | node lv lh ll lr =>
      obtain ⟨-, hll, hlr⟩ := hl
      obtain ⟨b1, b2, bll, blr⟩ := bl
      have gll := getHeight_eq hll
      have glr := getHeight_eq hlr
      have tll := trueHeight_ge ll
      have tlr := trueHeight_ge lr
      simp only [trueHeight] at hA h1 h2 ⊢
      have hLH : isLeftHeavy (getHeight (AVLNode.node lv lh ll lr) - getHeight r) = true := by
        simp only [isLeftHeavy, gl, gr, trueHeight, decide_eq_true_eq]
        omega
      by_cases hF : trueHeight ll - trueHeight lr < 0
      · cases lr with
        | null => simp only [trueHeight] at hF; omega
        | node mv mh ml mr =>
          obtain ⟨-, hml, hmr⟩ := hlr
          obtain ⟨c1, c2, bml, bmr⟩ := blr
          have tml := trueHeight_ge ml
          have tmr := trueHeight_ge mr
          simp only [trueHeight] at hA h1 h2 hF b1 b2 ⊢
          refine ⟨withHeight mv (withHeight lv ll ml) (withHeight v mr r), ?_, ?_, ?_, ?_⟩
          · simp only [withHeight, balance, hLH, if_true, getBalanceFactor, gll, glr,
              trueHeight, hF, rotateLeft, rotateRight]
          · exact heightsOk_withHeight _ (heightsOk_withHeight _ hll hml)
              (heightsOk_withHeight _ hmr hr)
          · refine balanced_withHeight _ (balanced_withHeight _ bll bml ?_ ?_)
              (balanced_withHeight _ bmr br ?_ ?_) ?_ ?_ <;>
              (try simp only [trueHeight_withHeight]) <;> omega
          · simp only [trueHeight_withHeight]
            omega
      · refine ⟨withHeight lv ll (withHeight v lr r), ?_, ?_, ?_, ?_⟩
        · simp only [withHeight, balance, hLH, if_true, getBalanceFactor, gll, glr,
            hF, if_false, rotateRight]
        · exact heightsOk_withHeight _ hll (heightsOk_withHeight _ hlr hr)
        · refine balanced_withHeight _ bll (balanced_withHeight _ blr br ?_ ?_) ?_ ?_ <;>
            (try simp only [trueHeight_withHeight]) <;> omega
        · simp only [trueHeight_withHeight]
          omega
  · have hLH : isLeftHeavy (getHeight l - getHeight r) = false := by
      simp only [isLeftHeavy, gl, gr, decide_eq_false_iff_not]
      exact hA
    by_cases hB : trueHeight l - trueHeight r < -1
    · cases r with
      | null => simp only [trueHeight] at hB; omega
      | node rv rh rl rr =>
        obtain ⟨-, hrl, hrr⟩ := hr
        obtain ⟨b1, b2, brl, brr⟩ := br
        have grl := getHeight_eq hrl
        have grr := getHeight_eq hrr
        have trl := trueHeight_ge rl
        have trr := trueHeight_ge rr
        simp only [trueHeight] at hA hB h1 h2 ⊢
        have hRH : isRightHeavy (getHeight l - getHeight (AVLNode.node rv rh rl rr)) = true := by
          simp only [isRightHeavy, gl, gr, trueHeight, decide_eq_true_eq]
          omega
        by_cases hF : trueHeight rl - trueHeight rr > 0
        · cases rl with
          | null => simp only [trueHeight] at hF; omega
          | node mv mh ml mr =>
            obtain ⟨-, hml, hmr⟩ := hrl
            obtain ⟨c1, c2, bml, bmr⟩ := brl
            have tml := trueHeight_ge ml
            have tmr := trueHeight_ge mr
            simp only [trueHeight] at hA hB h1 h2 hF b1 b2 ⊢
            refine ⟨withHeight mv (withHeight v l ml) (withHeight rv mr rr), ?_, ?_, ?_, ?_⟩
            · simp only [withHeight, balance, hLH, hRH, if_true, getBalanceFactor, grl, grr,
                trueHeight, hF, rotateLeft, rotateRight]
              simp
            · exact heightsOk_withHeight _ (heightsOk_withHeight _ hl hml)
                (heightsOk_withHeight _ hmr hrr)
            · refine balanced_withHeight _ (balanced_withHeight _ bl bml ?_ ?_)
                (balanced_withHeight _ bmr brr ?_ ?_) ?_ ?_ <;>
                (try simp only [trueHeight_withHeight]) <;> omega
            · simp only [trueHeight_withHeight]
              omega
        · refine ⟨withHeight rv (withHeight v l rl) rr, ?_, ?_, ?_, ?_⟩
          · simp only [withHeight, balance, hLH, hRH, if_true, getBalanceFactor, grl, grr,
              hF, if_false, rotateLeft]
            simp
          · exact heightsOk_withHeight _ (heightsOk_withHeight _ hl hrl) hrr
          · refine balanced_withHeight _ (balanced_withHeight _ bl brl ?_ ?_) brr ?_ ?_ <;>
              (try simp only [trueHeight_withHeight]) <;> omega
          · simp only [trueHeight_withHeight]
            omega
    · have hRH : isRightHeavy (getHeight l - getHeight r) = false := by
        simp only [isRightHeavy, gl, gr, decide_eq_false_iff_not]
        exact hB
      refine ⟨withHeight v l r, ?_, heightsOk_withHeight _ hl hr,
        balanced_withHeight _ bl br (by omega) (by omega), ?_⟩
      · simp only [withHeight, balance, hLH, hRH]
        simp
      · refine ⟨?_, ?_, fun _ _ => rfl⟩ <;> simp only [trueHeight_withHeight] <;> omega

variable [LinearOrder T]

theorem insertNode_spec (t : AVLNode T) (item : T) (ht : HeightsOk t) (bt : Balanced t) :
    ∃ t', insertNode t item = some t' ∧ HeightsOk t' ∧ Balanced t' ∧
      trueHeight t ≤ trueHeight t' ∧ trueHeight t' ≤ trueHeight t + 1 := by
  induction t with
  | null =>
    refine ⟨newNode item, rfl, ⟨?_, trivial, trivial⟩, ⟨?_, ?_, trivial, trivial⟩,
      ?_, ?_⟩ <;>
      simp [newNode, trueHeight]
  | node v h l r ihl ihr =>
    obtain ⟨-, hl, hr⟩ := ht
    obtain ⟨b1, b2, bl, br⟩ := bt
    simp only [insertNode]
    split
    · obtain ⟨l', e, hl', bl', g1, g2⟩ := ihl hl bl
      obtain ⟨t', e', ht', bt', k1, k2, k3⟩ :=
        balance_spec v hl' hr bl' br (by omega) (by omega)
      refine ⟨t', by rw [e]; exact e', ht', bt', ?_, ?_⟩
      · simp only [trueHeight]
        omega
      · simp only [trueHeight]
        by_cases hd : trueHeight l' - trueHeight r ≤ 1
        · have := k3 hd (by omega)
          omega
        · omega
    · obtain ⟨r', e, hr', br', g1, g2⟩ := ihr hr br
      obtain ⟨t', e', ht', bt', k1, k2, k3⟩ :=
        balance_spec v hl hr' bl br' (by omega) (by omega)
      refine ⟨t', by rw [e]; exact e', ht', bt', ?_, ?_⟩
      · simp only [trueHeight]
        omega
      · simp only [trueHeight]
        by_cases hd : trueHeight r' - trueHeight l ≤ 1
        · have := k3 (by omega) hd
          omega
        · omega

theorem insertAll_spec (items : List T) (t : AVLTree T) (ht : HeightsOk t.root)
    (bt : Balanced t.root) :
    ∃ t', insertAll t items = some t' ∧ HeightsOk t'.root ∧ Balanced t'.root := by
  induction items generalizing t with
  | nil => exact ⟨t, rfl, ht, bt⟩
  | cons a rest ih =>
    obtain ⟨n, e, hn, bn, -, -⟩ := insertNode_spec t.root a ht bt
    obtain ⟨t', e', ht', bt'⟩ := ih ⟨t.mSize + 1, n⟩ hn bn
    exact ⟨t', by simp only [insertAll, insert, e]; exact e', ht', bt'⟩

end AVLLemmas

variable {T : Type} [LinearOrder T]

/-- C16: every finite sequence of `insert` calls on an initially empty tree runs
to completion, and in the resulting tree every node has left and right subtrees
whose true heights differ by at most 1 (and every `height` member holds the true
height of its node). -/
theorem insertAll_balanced (items : List T) :
    ∃ t : AVLTree T, insertAll empty items = some t ∧ Balanced t.root ∧ HeightsOk t.root := by
  obtain ⟨t, e, ht, bt⟩ := insertAll_spec items (empty : AVLTree T) trivial trivial
  exact ⟨t, e, bt, ht⟩


end AVLTree

namespace Graph

open WeightedGraph (mapFind keys values mem_of_mapFind mem_keys_of_mem)

section TraversalLemmas

variable {T : Type}

theorem edge_nodes {g : Graph T} (hw : WellFormed g) {u v : Nat} (h : Edge g u v) :
    u ∈ nodes g ∧ v ∈ nodes g := by
  unfold Edge successors at h
  cases hf : mapFind g.adjacencyList u with
  | none => rw [hf] at h; simp at h
  | some l =>
    rw [hf] at h
    have hm := mem_of_mapFind hf
    exact ⟨(hw.keysNodes u).mp (mem_keys_of_mem hm), hw.targets _ hm v h⟩

theorem filter_length_lt {l : List Nat} {p q : Nat → Bool}
    (hpq : ∀ x, q x = true → p x = true)
    {a : Nat} (ha : a ∈ l) (hp : p a = true) (hq : q a = false) :
    (l.filter q).length < (l.filter p).length := by
  induction l with
  | nil => simp at ha
  | cons b rest ih =>
    have hle : (rest.filter q).length ≤ (rest.filter p).length :=
      (List.monotone_filter_right rest (fun x hx => hpq x hx)).length_le
    rcases List.mem_cons.mp ha with rfl | ha
    · rw [List.filter_cons_of_pos hp, List.filter_cons_of_neg (by simp [hq]), List.length_cons]
      omega
    · have := ih ha
      by_cases hqb : q b = true
      · rw [List.filter_cons_of_pos hqb, List.filter_cons_of_pos (hpq b hqb),
          List.length_cons, List.length_cons]
        omega
      · by_cases hpb : p b = true
        · rw [List.filter_cons_of_neg hqb, List.filter_cons_of_pos hpb, List.length_cons]
          omega
        · rw [List.filter_cons_of_neg hqb, List.filter_cons_of_neg hpb]
          exact this

theorem unvisited_pos {g : Graph T} {n : Nat} {seen : List Nat} (hn : n ∈ nodes g)
    (hs : n ∉ seen) : 0 < unvisited g seen := by
  unfold unvisited
  exact List.length_pos_of_mem (List.mem_filter.mpr ⟨hn, by simp [hs]⟩)

theorem unvisited_mono {g : Graph T} {seen seen' : List Nat} (h : ∀ x ∈ seen, x ∈ seen') :
    unvisited g seen' ≤ unvisited g seen := by
  unfold unvisited
  apply List.Sublist.length_le
  apply List.monotone_filter_right
  intro x hx
  simp only [decide_eq_true_eq] at hx ⊢
  exact fun hs => hx (h x hs)

theorem unvisited_lt {g : Graph T} {seen seen' : List Nat} (h : ∀ x ∈ seen, x ∈ seen')
    {n : Nat} (hn : n ∈ nodes g) (hs : n ∉ seen) (hs' : n ∈ seen') :
    unvisited g seen' < unvisited g seen := by
  unfold unvisited
  apply filter_length_lt _ hn
  · simp [hs]
  · simp [hs']
  · intro x hx
    simp only [decide_eq_true_eq] at hx ⊢
    exact fun hs => hx (h x hs)

theorem unvisited_le_length (g : Graph T) (seen : List Nat) :
    unvisited g seen ≤ (nodes g).length :=
  List.length_filter_le _ _

theorem topo_nodup {g : Graph T} {st : List Nat} (h : Topo g st) : st.Nodup := by
  induction st with
  | nil => exact List.nodup_nil
  | cons u rest ih => exact List.nodup_cons.mpr ⟨h.2.1, ih h.2.2⟩

theorem topo_edge {g : Graph T} {st : List Nat} (h : Topo g st) {u v : Nat} (hu : u ∈ st)
    (he : Edge g u v) : v ∈ st ∧ List.indexOf u st < List.indexOf v st := by
  induction st with
  | nil => simp at hu
  | cons x rest ih =>
    obtain ⟨h1, h2, h3⟩ := h
    by_cases hux : u = x
    · subst hux
      have hv : v ∈ rest := h1 v he
      have hne : v ≠ u := fun e => h2 (e ▸ hv)
      refine ⟨List.mem_cons_of_mem _ hv, ?_⟩
      rw [List.indexOf_cons_self, List.indexOf_cons_ne _ (Ne.symm hne)]
      omega
    · have hu' : u ∈ rest := by
        rcases List.mem_cons.mp hu with e | e
        · exact absurd e hux
        · exact e
      obtain ⟨hv, hlt⟩ := ih h3 hu'
      have hne : v ≠ x := fun e => h2 (e ▸ hv)
      refine ⟨List.mem_cons_of_mem _ hv, ?_⟩
      rw [List.indexOf_cons_ne _ (Ne.symm hux), List.indexOf_cons_ne _ (Ne.symm hne)]
      omega

theorem topo_path {g : Graph T} {st : List Nat} (h : Topo g st) {u w : Nat}
    (hp : Relation.TransGen (Edge g) u w) (hu : u ∈ st) :
    w ∈ st ∧ List.indexOf u st < List.indexOf w st := by
  induction hp with
  | single he => exact topo_edge h hu he
  | tail _ he ih =>
    obtain ⟨hb, hlt⟩ := ih
    obtain ⟨hc, hlt'⟩ := topo_edge h hb he
    exact ⟨hc, lt_trans hlt hlt'⟩

theorem topo_acyclic {g : Graph T} (hw : WellFormed g) {st : List Nat} (h : Topo g st)
    (hall : ∀ n ∈ nodes g, n ∈ st) : ¬ HasCycle g := by
  rintro ⟨u, hp⟩
  have hu : u ∈ nodes g := by
    cases hp with
    | single he => exact (edge_nodes hw he).2
    | tail _ he => exact (edge_nodes hw he).2
  exact lt_irrefl _ (topo_path h hp (hall u hu)).2

end TraversalLemmas

end Graph

namespace Graph

section CycleLemmas

variable {T : Type}

theorem cyclePre_of_step {g : Graph T} {s s' : List Nat × List Nat}
    (h : CycleStep g s s') : CyclePre g s' :=
  ⟨h.topo, h.doneNodes, fun x hx => h.same ▸ h.disjoint x hx⟩

theorem hasCycleAmong_spec {g : Graph T}
    {explore : Nat → List Nat × List Nat → Option (Bool × (List Nat × List Nat))} {f : Nat}
    (hexp : ExploreSpec g explore f) (ms : List Nat) (s : List Nat × List Nat)
    (hms : ∀ m ∈ ms, m ∈ nodes g ∧ ∀ x ∈ s.1, Relation.TransGen (Edge g) x m)
    (hpre : CyclePre g s) (hf : unvisited g (s.1 ++ s.2) ≤ f) :
    ∃ b s', hasCycleAmong explore ms s = some (b, s') ∧ (b = true → HasCycle g) ∧
      (b = false → CycleStep g s s' ∧ ∀ m ∈ ms, m ∈ s'.2) := by
  induction ms generalizing s with
  | nil =>
    refine ⟨false, s, rfl, fun h => Bool.noConfusion h, fun _ => ⟨⟨rfl, hpre.topo,
      fun _ hx => hx, hpre.doneNodes, hpre.disjoint⟩, fun m hm => ?_⟩⟩
    simp at hm
  | cons m rest ih =>
    have hrest : ∀ m' ∈ rest,
        m' ∈ nodes g ∧ ∀ x ∈ s.1, Relation.TransGen (Edge g) x m' :=
      fun m' hm' => hms m' (List.mem_cons_of_mem _ hm')
    obtain ⟨hmn, hmp⟩ := hms m (List.mem_cons_self _ _)
    by_cases h2 : m ∈ s.2
    · obtain ⟨b, s', e, ht, hfalse⟩ := ih s hrest hpre hf
      refine ⟨b, s', by simp only [hasCycleAmong, h2, if_true]; exact e, ht, fun hb => ?_⟩
      obtain ⟨hstep, hall⟩ := hfalse hb
      refine ⟨hstep, fun m' hm' => ?_⟩
      rcases List.mem_cons.mp hm' with rfl | hm'
      · exact hstep.mono _ h2
      · exact hall m' hm'
    · by_cases h1 : m ∈ s.1
      · exact ⟨true, s, by simp only [hasCycleAmong, h2, h1, if_true, if_false],
          fun _ => ⟨m, hmp m h1⟩, fun h => Bool.noConfusion h⟩
      · obtain ⟨b, s1, e1, ht1, hf1⟩ := hexp m s hmn h1 h2 hpre hmp hf
        cases b with
        | true =>
          exact ⟨true, s1, by simp only [hasCycleAmong, h2, h1, if_false, e1], ht1,
            fun h => Bool.noConfusion h⟩
        | false =>
          obtain ⟨hstep1, hm1⟩ := hf1 rfl
          have hrest1 : ∀ m' ∈ rest,
              m' ∈ nodes g ∧ ∀ x ∈ s1.1, Relation.TransGen (Edge g) x m' := by
            intro m' hm'
            rw [hstep1.same]
            exact hrest m' hm'
          have hfuel1 : unvisited g (s1.1 ++ s1.2) ≤ f := by
            refine le_trans (unvisited_mono ?_) hf
            intro x hx
            rcases List.mem_append.mp hx with hx | hx
            · exact List.mem_append.mpr (Or.inl (hstep1.same ▸ hx))
            · exact List.mem_append.mpr (Or.inr (hstep1.mono x hx))
          obtain ⟨b, s', e, ht, hfalse⟩ := ih s1 hrest1 (cyclePre_of_step hstep1) hfuel1
          refine ⟨b, s', by simp only [hasCycleAmong, h2, h1, if_false, e1]; exact e, ht,
            fun hb => ?_⟩
          obtain ⟨hstep, hall⟩ := hfalse hb
          refine ⟨⟨hstep.same.trans hstep1.same, hstep.topo,
            fun x hx => hstep.mono x (hstep1.mono x hx), hstep.doneNodes,
            fun x hx => hstep1.same ▸ hstep.disjoint x hx⟩, fun m' hm' => ?_⟩
          rcases List.mem_cons.mp hm' with rfl | hm'
          · exact hstep.mono _ hm1
          · exact hall m' hm'

theorem hasCycleFrom_spec {g : Graph T} (hw : WellFormed g) (fuel : Nat) :
    ExploreSpec g (hasCycleFrom g fuel) fuel := by
  induction fuel with
  | zero =>
    intro m s hmn h1 h2 _ _ hf
    have : 0 < unvisited g (s.1 ++ s.2) :=
      unvisited_pos hmn (fun h => (List.mem_append.mp h).elim h1 h2)
    omega
  | succ fuel ih =>
    intro n s hn h1 h2 hpre hreach hf
    have hpre1 : CyclePre g (n :: s.1, s.2) :=
      ⟨hpre.topo, hpre.doneNodes, fun x hx hx' => by
        rcases List.mem_cons.mp hx' with rfl | hx'
        · exact h2 hx
        · exact hpre.disjoint x hx hx'⟩
    have hms : ∀ m ∈ successors g n,
        m ∈ nodes g ∧ ∀ x ∈ n :: s.1, Relation.TransGen (Edge g) x m := by
      intro m hm
      refine ⟨(edge_nodes hw hm).2, fun x hx => ?_⟩
      rcases List.mem_cons.mp hx with rfl | hx
      · exact Relation.TransGen.single hm
      · exact Relation.TransGen.tail (hreach x hx) hm
    have hfuel : unvisited g ((n :: s.1) ++ s.2) ≤ fuel := by
      have : unvisited g ((n :: s.1) ++ s.2) < unvisited g (s.1 ++ s.2) :=
        unvisited_lt (fun x hx => List.mem_cons_of_mem _ hx) hn
          (fun h => (List.mem_append.mp h).elim h1 h2) (List.mem_cons_self _ _)
      omega
    obtain ⟨b, s', e, ht, hfalse⟩ :=
      hasCycleAmong_spec ih (successors g n) (n :: s.1, s.2) hms hpre1 hfuel
    cases b with
    | true =>
      exact ⟨true, s', by simp only [hasCycleFrom, e], ht, fun h => Bool.noConfusion h⟩
    | false =>
      obtain ⟨hstep, hall⟩ := hfalse rfl
      have hsame : s'.1 = n :: s.1 := hstep.same
      refine ⟨false, (s'.1.erase n, n :: s'.2), by simp only [hasCycleFrom, e],
        fun h => Bool.noConfusion h, fun _ => ⟨⟨?_, ⟨hall, ?_, hstep.topo⟩, ?_, ?_, ?_⟩,
          List.mem_cons_self _ _⟩⟩
      · show s'.1.erase n = s.1
        rw [hsame, List.erase_cons_head]
      · exact fun hx => hstep.disjoint n hx (List.mem_cons_self _ _)
      · exact fun x hx => List.mem_cons_of_mem _ (hstep.mono x hx)
      · intro x hx
        rcases List.mem_cons.mp hx with rfl | hx
        · exact hn
        · exact hstep.doneNodes x hx
      · intro x hx
        rcases List.mem_cons.mp hx with rfl | hx
        · exact h1
        · exact fun hx' => hstep.disjoint x hx (List.mem_cons_of_mem _ hx')

theorem hasCycle_spec {g : Graph T} (hw : WellFormed g) :
    ∃ b, hasCycle g = Outcome.ok b ∧ (b = true ↔ HasCycle g) := by
  have hpre : CyclePre g (([], []) : List Nat × List Nat) :=
    ⟨trivial, fun x hx => by simp at hx, fun x hx => by simp at hx⟩
  obtain ⟨b, s', e, ht, hfalse⟩ :=
    hasCycleAmong_spec (hasCycleFrom_spec hw (nodes g).length) (nodes g) ([], [])
      (fun m hm => ⟨hm, fun x hx => by simp at hx⟩) hpre (unvisited_le_length g _)
  refine ⟨b, by simp only [hasCycle, e], ht, fun hc => ?_⟩
  cases b with
  | true => rfl
  | false =>
    obtain ⟨hstep, hall⟩ := hfalse rfl
    exact absurd hc (topo_acyclic hw hstep.topo hall)

end CycleLemmas

end Graph

namespace Graph

open WeightedGraph (mapInsert mapFind keys values mem_of_mapFind mem_keys_of_mem)

section TopoLemmas

variable {T : Type}

theorem topoPre_of_step {g : Graph T} {s s' : List Nat × List Nat}
    (h : TopoStep g s s') : TopoPre g s' :=
  ⟨h.topo, fun x hx => (h.seen x).mpr (Or.inr hx), h.seenNodes⟩

theorem topoStep_refl {g : Graph T} {s : List Nat × List Nat} (h : TopoPre g s) :
    TopoStep g s s :=
  ⟨h.topo, fun _ hx => hx, fun x => ⟨Or.inl, fun hx => hx.elim id (h.stackSeen x)⟩,
    fun _ hx => Or.inl hx, h.seenNodes⟩

theorem topoStep_trans {g : Graph T} {s s1 s2 : List Nat × List Nat}
    (h1 : TopoStep g s s1) (h2 : TopoStep g s1 s2) : TopoStep g s s2 := by
  refine ⟨h2.topo, fun x hx => h2.mono x (h1.mono x hx), fun x => ?_, fun x hx => ?_,
    h2.seenNodes⟩
  · rw [h2.seen, h1.seen]
    constructor
    · rintro ((hx | hx) | hx)
      · exact Or.inl hx
      · exact Or.inr (h2.mono x hx)
      · exact Or.inr hx
    · rintro (hx | hx)
      · exact Or.inl (Or.inl hx)
      · exact Or.inr hx
  · rcases h2.fresh x hx with hx1 | hx1
    · exact h1.fresh x hx1
    · exact Or.inr (fun hs => hx1 ((h1.seen x).mpr (Or.inl hs)))

theorem topoStep_gray {g : Graph T} {s s' : List Nat × List Nat} (h : TopoStep g s s')
    {x : Nat} (h2 : x ∈ s'.2) (h1 : x ∉ s'.1) : x ∈ s.2 ∧ x ∉ s.1 := by
  rcases (h.seen x).mp h2 with hx | hx
  · exact ⟨hx, fun hs => h1 (h.mono x hs)⟩
  · exact absurd hx h1

theorem visitAll_spec {g : Graph T}
    {visit : Nat → List Nat × List Nat → Option (List Nat × List Nat)} {f : Nat}
    (hvisit : VisitSpec g visit f) (ms : List Nat) (s : List Nat × List Nat)
    (hms : ∀ m ∈ ms, m ∈ nodes g ∧
      ∀ x ∈ s.2, x ∉ s.1 → Relation.TransGen (Edge g) x m)
    (hpre : TopoPre g s) (hf : unvisited g s.2 ≤ f) :
    ∃ s', visitAll visit ms s = some s' ∧ TopoStep g s s' ∧ ∀ m ∈ ms, m ∈ s'.1 := by
  induction ms generalizing s with
  | nil => exact ⟨s, rfl, topoStep_refl hpre, fun m hm => by simp at hm⟩
  | cons m rest ih =>
    obtain ⟨hmn, hmp⟩ := hms m (List.mem_cons_self _ _)
    obtain ⟨s1, e1, hstep1, hm1⟩ := hvisit m s hmn hpre hmp hf
    have hrest : ∀ m' ∈ rest, m' ∈ nodes g ∧
        ∀ x ∈ s1.2, x ∉ s1.1 → Relation.TransGen (Edge g) x m' := by
      intro m' hm'
      obtain ⟨h1, h2⟩ := hms m' (List.mem_cons_of_mem _ hm')
      refine ⟨h1, fun x hx hx' => ?_⟩
      obtain ⟨g1, g2⟩ := topoStep_gray hstep1 hx hx'
      exact h2 x g1 g2
    have hfuel1 : unvisited g s1.2 ≤ f :=
      le_trans (unvisited_mono (fun x hx => (hstep1.seen x).mpr (Or.inl hx))) hf
    obtain ⟨s', e, hstep, hall⟩ := ih s1 hrest (topoPre_of_step hstep1) hfuel1
    refine ⟨s', by simp only [visitAll, e1]; exact e, topoStep_trans hstep1 hstep,
      fun m' hm' => ?_⟩
    rcases List.mem_cons.mp hm' with rfl | hm'
    · exact hstep.mono _ hm1
    · exact hall m' hm'

theorem topologicalSortFrom_spec {g : Graph T} (hw : WellFormed g) (ha : ¬ HasCycle g)
    (fuel : Nat) : VisitSpec g (topologicalSortFrom g fuel) fuel := by
  induction fuel with
  | zero =>
    intro n s hn hpre hgray hf
    by_cases hv : n ∈ s.2
    · have hst : n ∈ s.1 := by
        by_contra hns
        exact ha ⟨n, hgray n hv hns⟩
      exact ⟨s, by simp only [topologicalSortFrom, hv, if_true], topoStep_refl hpre, hst⟩
    · have := unvisited_pos hn hv
      omega
  | succ fuel ih =>
    intro n s hn hpre hgray hf
    by_cases hv : n ∈ s.2
    · have hst : n ∈ s.1 := by
        by_contra hns
        exact ha ⟨n, hgray n hv hns⟩
      exact ⟨s, by simp only [topologicalSortFrom, hv, if_true], topoStep_refl hpre, hst⟩
    · have hns : n ∉ s.1 := fun h => hv (hpre.stackSeen n h)
      have hpre1 : TopoPre g (s.1, n :: s.2) :=
        ⟨hpre.topo, fun x hx => List.mem_cons_of_mem _ (hpre.stackSeen x hx), fun x hx => by
          rcases List.mem_cons.mp hx with rfl | hx
          · exact hn
          · exact hpre.seenNodes x hx⟩
      have hms : ∀ m ∈ successors g n, m ∈ nodes g ∧
          ∀ x ∈ n :: s.2, x ∉ s.1 → Relation.TransGen (Edge g) x m := by
        intro m hm
        refine ⟨(edge_nodes hw hm).2, fun x hx hx' => ?_⟩
        rcases List.mem_cons.mp hx with rfl | hx
        · exact Relation.TransGen.single hm
        · exact Relation.TransGen.tail (hgray x hx hx') hm
      have hfuel : unvisited g (n :: s.2) ≤ fuel := by
        have : unvisited g (n :: s.2) < unvisited g s.2 :=
          unvisited_lt (fun x hx => List.mem_cons_of_mem _ hx) hn hv (List.mem_cons_self _ _)
        omega
      obtain ⟨s', e, hstep, hall⟩ :=
        visitAll_spec ih (successors g n) (s.1, n :: s.2) hms hpre1 hfuel
      have hnew : n ∉ s'.1 := by
        intro h
        rcases hstep.fresh n h with h' | h'
        · exact hns h'
        · exact h' (List.mem_cons_self _ _)
      refine ⟨(n :: s'.1, s'.2), by simp only [topologicalSortFrom, hv, if_false, e],
        ⟨⟨hall, hnew, hstep.topo⟩, fun x hx => List.mem_cons_of_mem _ (hstep.mono x hx),
          fun x => ?_, fun x hx => ?_, hstep.seenNodes⟩, List.mem_cons_self _ _⟩
      · rw [hstep.seen]
        simp only [List.mem_cons]
        tauto
      · rcases List.mem_cons.mp hx with rfl | hx
        · exact Or.inr hv
        · rcases hstep.fresh x hx with h' | h'
          · exact Or.inl h'
          · exact Or.inr (fun hs => h' (List.mem_cons_of_mem _ hs))

theorem labelOf_some {g : Graph T} {n : Nat} (hn : n ∈ nodes g) :
    ∃ l, labelOf g n = some l ∧ (l, n) ∈ g.vertices := by
  obtain ⟨p, hp, rfl⟩ := List.mem_map.mp hn
  cases hf : g.vertices.find? (fun q => decide (q.2 = p.2)) with
  | none =>
    have := List.find?_eq_none.mp hf p hp
    simp at this
  | some q =>
    have h1 := List.find?_some hf
    have h2 := List.mem_of_find?_eq_some hf
    simp only [decide_eq_true_eq] at h1
    refine ⟨q.1, by simp only [labelOf, hf, Option.map_some'], ?_⟩
    rw [← h1]
    exact h2

theorem labels_forall2 {g : Graph T} (order : List Nat) (h : ∀ n ∈ order, n ∈ nodes g) :
    List.Forall₂ (fun n l => (l, n) ∈ g.vertices) order (order.filterMap (labelOf g)) := by
  induction order with
  | nil => exact List.Forall₂.nil
  | cons n rest ih =>
    obtain ⟨l, hl, hmem⟩ := labelOf_some (h n (List.mem_cons_self _ _))
    rw [List.filterMap_cons_some hl]
    exact List.Forall₂.cons hmem (ih (fun m hm => h m (List.mem_cons_of_mem _ hm)))

theorem topologicalSort_spec {g : Graph T} (hw : WellFormed g) (ha : ¬ HasCycle g) :
    ∃ order : List Nat, topologicalSort g = Outcome.ok (order.filterMap (labelOf g)) ∧
      Topo g order ∧ ∀ n, n ∈ order ↔ n ∈ nodes g := by
  obtain ⟨b, hb, hiff⟩ := hasCycle_spec hw
  have hbf : b = false := by
    cases b with
    | false => rfl
    | true => exact absurd (hiff.mp rfl) ha
  subst hbf
  have hpre : TopoPre g (([], []) : List Nat × List Nat) :=
    ⟨trivial, fun x hx => by simp at hx, fun x hx => by simp at hx⟩
  obtain ⟨s', e, hstep, hall⟩ :=
    visitAll_spec (topologicalSortFrom_spec hw ha (nodes g).length) (nodes g) ([], [])
      (fun m hm => ⟨hm, fun x hx => by simp at hx⟩) hpre (unvisited_le_length g _)
  refine ⟨s'.1, by simp only [topologicalSort, hb, e], hstep.topo,
    fun n => ⟨fun hn => ?_, hall n⟩⟩
  exact hstep.seenNodes n ((hstep.seen n).mpr (Or.inr hn))

theorem acyclic_of_hasCycle_false {g : Graph T} (hw : WellFormed g)
    (h : hasCycle g = Outcome.ok false) : ¬ HasCycle g := by
  obtain ⟨b, hb, hiff⟩ := hasCycle_spec hw
  intro hc
  have hbt : b = true := hiff.mpr hc
  subst hbt
  rw [hb] at h
  exact Bool.noConfusion (Outcome.ok.inj h)

theorem wellFormed_empty : WellFormed (empty : Graph T) :=
  ⟨fun n => by simp [empty, nodes, keys, values], fun p hp => by simp [empty] at hp⟩

variable [LinearOrder T]

theorem wellFormed_addNode {g g' : Graph T} (hw : WellFormed g) {label : T} {node : Nat}
    (h : addNode g label node = Outcome.ok g') : WellFormed g' := by
  unfold addNode at h
  split at h
  · exact Outcome.noConfusion h
  · have hg := Outcome.ok.inj h
    subst hg
    have hsub : ∀ n ∈ nodes g, n ∈ values (mapInsert g.vertices label node) := by
      intro n hn
      obtain ⟨q, hq, rfl⟩ := List.mem_map.mp hn
      exact WeightedGraph.mem_values_of_mem (WeightedGraph.mem_mapInsert_of_mem hq)
    have hnode : node ∈ values (mapInsert g.vertices label node) := by
      rename_i hnone
      have hl : label ∉ keys g.vertices := by
        intro hk
        obtain ⟨v, hv⟩ := WeightedGraph.mapFind_isSome_of_mem hk
        rw [hv] at hnone
        exact Option.noConfusion hnone
      exact WeightedGraph.mem_values_of_mem
        ((WeightedGraph.mapInsert_perm hl).mem_iff.mpr (List.mem_cons_self _ _))
    refine ⟨fun n => ⟨fun hn => ?_, fun hn => ?_⟩, fun p hp v hv => ?_⟩
    · obtain ⟨p, hp, rfl⟩ := List.mem_map.mp hn
      rcases WeightedGraph.mem_mapInsert hp with rfl | hp
      · exact hnode
      · exact hsub _ ((hw.keysNodes _).mp (mem_keys_of_mem hp))
    · obtain ⟨p, hp, rfl⟩ := List.mem_map.mp hn
      rcases WeightedGraph.mem_mapInsert hp with rfl | hp
      · exact WeightedGraph.mem_keys_mapInsert_self _ _ _
      · obtain ⟨q, hq, hqn⟩ := List.mem_map.mp
          ((hw.keysNodes _).mpr (WeightedGraph.mem_values_of_mem hp))
        exact hqn ▸ mem_keys_of_mem (WeightedGraph.mem_mapInsert_of_mem hq)
    · rcases WeightedGraph.mem_mapInsert hp with rfl | hp
      · simp at hv
      · exact hsub _ (hw.targets p hp v hv)

theorem wellFormed_addEdge {g g' : Graph T} (hw : WellFormed g) {f t : T}
    (h : addEdge g f t = Outcome.ok g') : WellFormed g' := by
  unfold addEdge at h
  split at h
  · rename_i fromNode toNode hf ht
    have hg := Outcome.ok.inj h
    subst hg
    refine ⟨fun n => ?_, fun p hp v hv => ?_⟩
    · show n ∈ keys (WeightedGraph.pushAt g.adjacencyList fromNode toNode) ↔ _
      rw [WeightedGraph.keys_pushAt]
      exact hw.keysNodes n
    · obtain ⟨q, hq, -, hq2⟩ := WeightedGraph.mem_pushAt hp
      rcases hq2 with e | ⟨-, e⟩
      · exact hw.targets q hq v (e ▸ hv)
      · rw [e] at hv
        rcases List.mem_append.mp hv with hv | hv
        · exact hw.targets q hq v hv
        · simp only [List.mem_singleton] at hv
          subst hv
          exact WeightedGraph.mem_values_of_mem (mem_of_mapFind ht)
  · exact Outcome.noConfusion h

theorem wellFormed_run (calls : List (Call T)) {g g' : Graph T} (hw : WellFormed g)
    (h : run g calls = Outcome.ok g') : WellFormed g' := by
  induction calls generalizing g with
  | nil => exact Outcome.ok.inj h ▸ hw
  | cons c rest ih =>
    cases c with
    | addNode label node =>
      simp only [run] at h
      cases hn : addNode g label node with
      | ok g1 => rw [hn] at h; exact ih (wellFormed_addNode hw hn) h
      | duplicateNodeError => rw [hn] at h; exact Outcome.noConfusion h
      | unknownNodeError => rw [hn] at h; exact Outcome.noConfusion h
      | cycleError => rw [hn] at h; exact Outcome.noConfusion h
      | outOfFuel => rw [hn] at h; exact Outcome.noConfusion h
    | addEdge f t =>
      simp only [run] at h
      cases hn : addEdge g f t with
      | ok g1 => rw [hn] at h; exact ih (wellFormed_addEdge hw hn) h
      | duplicateNodeError => rw [hn] at h; exact Outcome.noConfusion h
      | unknownNodeError => rw [hn] at h; exact Outcome.noConfusion h
      | cycleError => rw [hn] at h; exact Outcome.noConfusion h
      | outOfFuel => rw [hn] at h; exact Outcome.noConfusion h

theorem wellFormed_triangle : WellFormed triangleGraph :=
  wellFormed_run _ wellFormed_empty (show triangle = Outcome.ok triangleGraph by decide)

theorem wellFormed_diamond : WellFormed diamondGraph :=
  wellFormed_run _ wellFormed_empty (show diamond = Outcome.ok diamondGraph by decide)

theorem acyclic_diamond : ¬ HasCycle diamondGraph :=
  acyclic_of_hasCycle_false wellFormed_diamond (by decide)

end TopoLemmas

variable {T : Type}

/-- C12: for every acyclic directed graph (satisfying the invariants of the data
model) `topologicalSort` succeeds, and the returned labels are, position by
position, the labels of a sequence of nodes that contains every node of the
graph exactly once and in which, for every edge `u -> v`, the index of `u` is
smaller than the index of `v`. -/
theorem topologicalSort_acyclic (g : Graph T) (hw : WellFormed g) (ha : ¬ HasCycle g) :
    ∃ (order : List Nat) (labels : List T), topologicalSort g = Outcome.ok labels ∧
      List.Forall₂ (fun n l => (l, n) ∈ g.vertices) order labels ∧
      order.Nodup ∧ (∀ n, n ∈ order ↔ n ∈ nodes g) ∧
      ∀ u v, Edge g u v → List.indexOf u order < List.indexOf v order := by
  obtain ⟨order, e, htopo, hall⟩ := topologicalSort_spec hw ha
  exact ⟨order, _, e, labels_forall2 order (fun n hn => (hall n).mp hn), topo_nodup htopo,
    hall, fun u v he => (topo_edge htopo ((hall u).mpr (edge_nodes hw he).1) he).2⟩

/-- Claim C12 at a concrete input, the graph with the edges A -> B, A -> C,
B -> D, C -> D, whose sort is A, C, B, D. -/
theorem topologicalSort_acyclic_witness :
    diamond = Outcome.ok diamondGraph ∧ WellFormed diamondGraph ∧ ¬ HasCycle diamondGraph ∧
    topologicalSort diamondGraph = Outcome.ok ['A', 'C', 'B', 'D'] ∧
    ∃ (order : List Nat) (labels : List Char),
      topologicalSort diamondGraph = Outcome.ok labels ∧
      List.Forall₂ (fun n l => (l, n) ∈ diamondGraph.vertices) order labels ∧
      order.Nodup ∧ (∀ n, n ∈ order ↔ n ∈ nodes diamondGraph) ∧
      ∀ u v, Edge diamondGraph u v → List.indexOf u order < List.indexOf v order :=
  ⟨by decide, wellFormed_diamond, acyclic_diamond, by decide,
    topologicalSort_acyclic diamondGraph wellFormed_diamond acyclic_diamond⟩

/-- C14: on the graph with nodes A, B, C and edges A -> B, B -> C, C -> A,
`hasCycle()` returns true and `topologicalSort()` fails with the cycle error;
and on every directed graph (satisfying the invariants of the data model)
`hasCycle()` returns, and returns true iff the graph contains a cycle. -/
theorem hasCycle_iff_cycle :
    (triangle = Outcome.ok triangleGraph ∧ hasCycle triangleGraph = Outcome.ok true ∧
      topologicalSort triangleGraph = Outcome.cycleError) ∧
    ∀ g : Graph T, WellFormed g →
      ∃ b, hasCycle g = Outcome.ok b ∧ (b = true ↔ HasCycle g) :=
  ⟨by decide, fun _ hw => hasCycle_spec hw⟩

/-- Claim C14 at a concrete input: the general part on the triangle graph, which
has the cycle A -> B -> C -> A. -/
theorem hasCycle_iff_cycle_witness :
    WellFormed triangleGraph ∧ HasCycle triangleGraph ∧
    ∃ b, hasCycle triangleGraph = Outcome.ok b ∧ (b = true ↔ HasCycle triangleGraph) :=
  ⟨wellFormed_triangle,
    Exists.elim (hasCycle_iff_cycle.2 triangleGraph wellFormed_triangle)
      (fun b hb => hb.2.mp (by
        have h : hasCycle triangleGraph = Outcome.ok true := by decide
        exact Outcome.ok.inj (hb.1.symm.trans h))),
    hasCycle_iff_cycle.2 triangleGraph wellFormed_triangle⟩

end Graph

namespace BinaryTree

variable {T : Type} [LinearOrder T]

/-- C25: for every binary tree, whether or not it satisfies the search-tree
ordering, and every item `x`, the recursive `contains(x)` returns the same
boolean as the iterative `find(x)`. -/
theorem contains_eq_find (t : Tree T) (x : T) : t.contains x = t.find x := by
  unfold Tree.contains Tree.find
  induction t.root with
  | null => rfl
  | node v l r ihl ihr =>
    simp only [containsNode, findNode]
    by_cases hv : v = x
    · subst hv
      simp
    · rw [if_neg hv]
      by_cases hlt : x < v
      · rw [if_pos hlt, if_pos hlt, ihl]
      · have hgt : x > v := lt_of_le_of_ne (not_lt.mp hlt) hv
        rw [if_neg hlt, if_neg hlt, if_pos hgt, ihr]

end BinaryTree

namespace Exercises

section MapLemmas

variable {K V : Type} [DecidableEq K]

theorem lookup_filter_ne (m : List (K × V)) {k d : K} (h : d ≠ k) :
    lookup (m.filter (fun p => decide (p.1 ≠ k))) d = lookup m d := by
  induction m with
  | nil => rfl
  | cons a rest ih =>
    obtain ⟨k', v⟩ := a
    by_cases hk : k' = k
    · have hd : ¬ k' = d := fun e => h (e ▸ hk)
      rw [List.filter_cons_of_neg (by simp [hk]), ih]
      simp only [lookup, if_neg hd]
    · rw [List.filter_cons_of_pos (by simp [hk])]
      simp only [lookup, ih]

theorem lookup_assign (m : List (K × V)) (k d : K) (v : V) :
    lookup (assign m k v) d = if k = d then some v else lookup m d := by
  unfold assign
  by_cases h : k = d
  · simp only [lookup, if_pos h]
  · simp only [lookup, if_neg h]
    exact lookup_filter_ne m (fun e => h e.symm)

end MapLemmas

theorem getElem?_append_cons_length (pre rest : List Int) (x : Int) :
    (pre ++ x :: rest)[pre.length]? = some x := by
  rw [List.getElem?_append_right (le_refl _), Nat.sub_self]
  exact List.getElem?_cons_zero

theorem wrapInt_of_isInt (x : Int) (h : IsInt x) : wrapInt x = x := by
  unfold IsInt at h
  unfold wrapInt
  omega

theorem twoSumLoop_spec (target : Int) (rest pre : List Int) (map : List (Int × Nat))
    (h1 : ∀ d j, lookup map d = some j → pre[j]? = some d)
    (h2 : ∀ d ∈ pre, ∃ j, lookup map d = some j) :
    (∀ x ∈ rest, wrapInt (target - x) = target - x) →
    (∀ j i, twoSumLoop target rest pre.length map = some (j, i) →
      j < i ∧ ∃ x y, (pre ++ rest)[j]? = some x ∧ (pre ++ rest)[i]? = some y ∧
        x + y = target) ∧
    (twoSumLoop target rest pre.length map = none →
      ∀ a b x y, a < b → pre.length ≤ b → (pre ++ rest)[a]? = some x →
        (pre ++ rest)[b]? = some y → x + y ≠ target) := by
  induction rest generalizing pre map with
  | nil =>
    intro _
    refine ⟨fun j i h => by simp [twoSumLoop] at h, fun _ a b x y _ hb _ hy => ?_⟩
    rw [List.append_nil] at hy
    have := (List.getElem?_eq_some.mp hy).1
    omega
  | cons x rest ih =>
    intro hex
    have hw : wrapInt (target - x) = target - x := hex x (List.mem_cons_self _ _)
    cases hl : lookup map (target - x) with
    | some j0 =>
      have hj0 := h1 _ _ hl
      have hlt : j0 < pre.length := (List.getElem?_eq_some.mp hj0).1
      refine ⟨fun j i h => ?_, fun h => by simp [twoSumLoop, hw, hl] at h⟩
      simp only [twoSumLoop, hw, hl, Option.some.injEq, Prod.mk.injEq] at h
      obtain ⟨rfl, rfl⟩ := h
      refine ⟨hlt, target - x, x, ?_, ?_, by omega⟩
      · rw [List.getElem?_append_left hlt]
        exact hj0
      · exact getElem?_append_cons_length pre rest x
    | none =>
      have h1' : ∀ d j, lookup (assign map x pre.length) d = some j →
          (pre ++ [x])[j]? = some d := by
        intro d j hd
        rw [lookup_assign] at hd
        by_cases hx : x = d
        · rw [if_pos hx] at hd
          have : pre.length = j := Option.some.inj hd
          subst this
          subst hx
          simp
        · rw [if_neg hx] at hd
          have hj := h1 d j hd
          rw [List.getElem?_append_left (List.getElem?_eq_some.mp hj).1]
          exact hj
      have h2' : ∀ d ∈ pre ++ [x], ∃ j, lookup (assign map x pre.length) d = some j := by
        intro d hd
        rw [lookup_assign]
        by_cases hx : x = d
        · exact ⟨pre.length, by rw [if_pos hx]⟩
        · rw [if_neg hx]
          rcases List.mem_append.mp hd with hd | hd
          · exact h2 d hd
          · exact absurd (List.mem_singleton.mp hd).symm hx
      have hlen : (pre ++ [x]).length = pre.length + 1 := by simp
      have happ : (pre ++ [x]) ++ rest = pre ++ x :: rest := by simp
      obtain ⟨ih1, ih2⟩ := ih (pre ++ [x]) (assign map x pre.length) h1' h2'
        (fun y hy => hex y (List.mem_cons_of_mem _ hy))
      rw [hlen, happ] at ih1 ih2
      have hstep : twoSumLoop target (x :: rest) pre.length map =
          twoSumLoop target rest (pre.length + 1) (assign map x pre.length) := by
        simp only [twoSumLoop, hw, hl]
      rw [hstep]
      refine ⟨ih1, fun hnone a b xa y hab hb ha hy hsum => ?_⟩
      by_cases hbe : b = pre.length
      · subst hbe
        have hy' : y = x := by
          rw [getElem?_append_cons_length pre rest x] at hy
          exact (Option.some.inj hy).symm
        subst hy'
        rw [List.getElem?_append_left hab] at ha
        obtain ⟨j, hj⟩ := h2 xa (List.getElem?_mem ha)
        have hxa : xa = target - y := by omega
        rw [hxa, hl] at hj
        exact Option.noConfusion hj
      · exact ih2 hnone a b xa y hab (by omega) ha hy hsum

/-- The `int` subtraction wraps around: on `nums = {INT_MIN, -1}` and
`target = INT_MAX` the difference `INT_MAX - (-1)` wraps to `INT_MIN`, which is
in the map, and the pair `{0, 1}` is returned although `INT_MIN + (-1)` is not
`INT_MAX`. -/
theorem twoSum_wraps :
    twoSum [-2147483648, -1] 2147483647 = some (0, 1) ∧
    ¬ HasPair [-2147483648, -1] 2147483647 ∧
    ¬ ExactArithmetic [-2147483648, -1] 2147483647 := by
  refine ⟨by decide, ?_, by decide⟩
  rintro ⟨a, b, x, y, hab, hx, hy, hs⟩
  have ha := (List.getElem?_eq_some.mp hx).1
  have hb := (List.getElem?_eq_some.mp hy).1
  simp only [List.length_cons, List.length_nil] at ha hb
  have h2 : ∀ n, n < 2 → n = 0 ∨ n = 1 := fun n hn => by omega
  rcases h2 a ha with rfl | rfl <;> rcases h2 b hb with rfl | rfl <;>
    simp at hx hy <;> omega

/-- C24: in exact integer arithmetic (the target and the elements are `int`
values, the vector has at most 2^31 - 1 elements and no difference
`target - nums[i]` overflows), whenever `twoSum(nums, target)` returns it
returns a pair `[j, i]` of indices with `j < i < nums.size()` and
`nums[j] + nums[i] = target`; it returns whenever two distinct indices with that
sum exist; and it throws iff no such pair of distinct indices exists. -/
theorem twoSum_spec (nums : List Int) (target : Int) (hexact : ExactArithmetic nums target) :
    (∀ j i, twoSum nums target = some (j, i) →
      j < i ∧ i < nums.length ∧
        ∃ (x y : Int), nums[j]? = some x ∧ nums[i]? = some y ∧ x + y = target) ∧
    (HasPair nums target →
      ∃ j i, twoSum nums target = some (j, i)) ∧
    (twoSum nums target = none ↔
      ¬ HasPair nums target) := by
  obtain ⟨s1, s2⟩ := twoSumLoop_spec target nums [] []
    (fun d j h => by simp [lookup] at h) (fun d hd => by simp at hd)
    (fun x hx => wrapInt_of_isInt _ (hexact.2.2 x hx).2)
  simp only [List.length_nil, List.nil_append] at s1 s2
  have hsound : ∀ j i, twoSum nums target = some (j, i) →
      j < i ∧ i < nums.length ∧
        ∃ (x y : Int), nums[j]? = some x ∧ nums[i]? = some y ∧ x + y = target := by
    intro j i h
    obtain ⟨hji, x, y, hx, hy, hs⟩ := s1 j i h
    exact ⟨hji, (List.getElem?_eq_some.mp hy).1, x, y, hx, hy, hs⟩
  have hnone : twoSum nums target = none →
      ¬ HasPair nums target := by
    rintro h ⟨a, b, x, y, hab, hx, hy, hs⟩
    rcases Nat.lt_or_gt_of_ne hab with hlt | hgt
    · exact s2 h a b x y hlt (Nat.zero_le _) hx hy hs
    · exact s2 h b a y x hgt (Nat.zero_le _) hy hx (by omega)
  have hsome : ∀ r, twoSum nums target = some r →
      HasPair nums target := by
    rintro ⟨j, i⟩ h
    obtain ⟨hji, -, x, y, hx, hy, hs⟩ := hsound j i h
    exact ⟨j, i, x, y, by omega, hx, hy, hs⟩
  refine ⟨hsound, fun hex => ?_, hnone, fun hno => ?_⟩
  · cases h : twoSum nums target with
    | none => exact absurd hex (hnone h)
    | some r => exact ⟨r.1, r.2, rfl⟩
  · cases h : twoSum nums target with
    | none => rfl
    | some r => exact absurd (hsome r h) hno

/-- Claim C24 at a concrete input: `nums = [2, 7, 11, 15]`, `target = 9`. -/
theorem twoSum_spec_witness :
    ExactArithmetic [2, 7, 11, 15] 9 ∧
    twoSum [2, 7, 11, 15] 9 = some (0, 1) ∧
    (0 < 1 ∧ 1 < [(2 : Int), 7, 11, 15].length ∧
      ∃ x y, [(2 : Int), 7, 11, 15][0]? = some x ∧ [(2 : Int), 7, 11, 15][1]? = some y ∧
        x + y = 9) :=
  ⟨by decide, by decide, (twoSum_spec [2, 7, 11, 15] 9 (by decide)).1 0 1 (by decide)⟩

end Exercises

namespace Exercises

theorem countChars_fold (s : List Char) (m : List (Char × Nat)) (c : Char) :
    (lookup (s.foldl (fun m c => assign m c ((lookup m c).getD 0 + 1)) m) c).getD 0 =
      (lookup m c).getD 0 + s.count c := by
  induction s generalizing m with
  | nil => simp
  | cons a rest ih =>
    rw [List.foldl_cons, ih, lookup_assign, List.count_cons]
    by_cases h : a = c
    · subst h
      simp
      omega
    · simp [h]

theorem countChars_lookup (s : List Char) (c : Char) :
    (lookup (countChars s) c).getD 0 = s.count c := by
  unfold countChars
  rw [countChars_fold]
  simp [lookup]

theorem firstUniqueLoop_eq (s : List Char) (rest : List Char) :
    firstUniqueLoop s (countChars s) rest =
      match rest.find? (fun c => decide (s.count c = 1)) with
      | some c => stringAt s (charIndex c)
      | none => some (Char.ofNat 0) := by
  induction rest with
  | nil => rfl
  | cons i rest ih =>
    simp only [firstUniqueLoop, countChars_lookup]
    by_cases h : s.count i = 1
    · rw [if_pos h, List.find?_cons_of_pos _ (by simp [h])]
    · rw [if_neg h, List.find?_cons_of_neg _ (by simp [h])]
      exact ih

/-- C21 (as stated, fails): the string of the single character with code 1 has a
character occurring exactly once, yet the result is the null character, read at
index 1 = length; likewise for the two characters with codes 1 and 0. -/
theorem findFirstNonRepeatedCharacter_null_with_unique :
    [Char.ofNat 1].count (Char.ofNat 1) = 1 ∧
    findFirstNonRepeatedCharacter [Char.ofNat 1] = some (Char.ofNat 0) ∧
    [Char.ofNat 1, Char.ofNat 0].count (Char.ofNat 1) = 1 ∧
    findFirstNonRepeatedCharacter [Char.ofNat 1, Char.ofNat 0] = some (Char.ofNat 0) := by
  decide

theorem charIndex_of_lt (c : Char) (h : c.toNat < 128) : charIndex c = c.toNat := by
  unfold charIndex charValue
  rw [if_pos h]
  omega

theorem charIndex_of_ge (c : Char) (h : 128 ≤ c.toNat) (hbyte : c.toNat < 256) :
    18446744073709551488 ≤ charIndex c := by
  unfold charIndex charValue
  rw [if_neg (by omega)]
  omega

/-- A byte from 0x80 on indexes out of bounds: on the byte 233 followed by 299
letters `a`, the byte 233 is the first non-repeated character and the string is
read at index 2^64 - 23, far beyond its 300 characters. -/
theorem findFirstNonRepeatedCharacter_high_byte :
    charIndex (Char.ofNat 233) = 18446744073709551593 ∧
    findFirstNonRepeatedCharacter (Char.ofNat 233 :: List.replicate 299 'a') = none := by
  have hi : charIndex (Char.ofNat 233) = 18446744073709551593 := by decide
  have hne : ¬ (Char.ofNat 233 = 'a') := by decide
  have hcount : (Char.ofNat 233 :: List.replicate 299 'a').count (Char.ofNat 233) = 1 := by
    rw [List.count_cons_self, List.count_replicate, if_neg (by simp)]
  have hfind : (Char.ofNat 233 :: List.replicate 299 'a').find?
      (fun c => decide ((Char.ofNat 233 :: List.replicate 299 'a').count c = 1)) =
      some (Char.ofNat 233) :=
    List.find?_cons_of_pos _ (decide_eq_true hcount)
  refine ⟨hi, ?_⟩
  unfold findFirstNonRepeatedCharacter
  rw [firstUniqueLoop_eq, hfind]
  simp only [stringAt, hi, List.length_cons, List.length_replicate]
  rfl

/-- C21 (amended): on a string of bytes shorter than 2^63, when `c` is the first
character occurring exactly once, the function yields the string indexed by the
signed `char` value of `c` converted to `size_t` instead of `c`: for a byte below
0x80 the element at the index equal to the code of `c` when that is below the
length, the null character when it equals the length, undefined beyond; for a
byte from 0x80 on always undefined. For the two-character string with codes 1
and 98 the result differs from the first non-repeated character; and when no
character occurs exactly once the function returns the null character. -/
theorem findFirstNonRepeatedCharacter_spec :
    (∀ (s : List Char) (c : Char), IsByteString s → firstNonRepeated s = some c →
      findFirstNonRepeatedCharacter s = stringAt s (charIndex c) ∧
      (c.toNat < 128 → c.toNat < s.length →
        findFirstNonRepeatedCharacter s = s[c.toNat]?) ∧
      (c.toNat < 128 → c.toNat = s.length →
        findFirstNonRepeatedCharacter s = some (Char.ofNat 0)) ∧
      (s.length < c.toNat ∨ 128 ≤ c.toNat → findFirstNonRepeatedCharacter s = none)) ∧
    (firstNonRepeated [Char.ofNat 1, Char.ofNat 98] = some (Char.ofNat 1) ∧
      findFirstNonRepeatedCharacter [Char.ofNat 1, Char.ofNat 98] = some (Char.ofNat 98)) ∧
    (∀ s : List Char, (∀ c ∈ s, s.count c ≠ 1) →
      findFirstNonRepeatedCharacter s = some (Char.ofNat 0)) := by
  refine ⟨fun s c hb h => ?_, by decide, fun s h => ?_⟩
  · unfold firstNonRepeated at h
    unfold IsByteString at hb
    have hc : c ∈ s := List.mem_of_find?_eq_some h
    have e : findFirstNonRepeatedCharacter s = stringAt s (charIndex c) := by
      unfold findFirstNonRepeatedCharacter
      rw [firstUniqueLoop_eq, h]
    refine ⟨e, fun h7 hlt => ?_, fun h7 heq => ?_, fun hor => ?_⟩
    · rw [e, charIndex_of_lt c h7, stringAt, if_pos hlt]
    · rw [e, charIndex_of_lt c h7, stringAt, if_neg (by omega), if_pos heq]
    · have hgt : s.length < charIndex c := by
        rcases Nat.lt_or_ge c.toNat 128 with h7 | h8
        · rw [charIndex_of_lt c h7]
          omega
        · have h1 := charIndex_of_ge c h8 (hb.2 c hc)
          have h2 := hb.1
          omega
      rw [e, stringAt, if_neg (by omega), if_neg (by omega)]
  · have hnone : s.find? (fun c => decide (s.count c = 1)) = none :=
      List.find?_eq_none.mpr (fun c hc => by simpa using h c hc)
    unfold findFirstNonRepeatedCharacter
    rw [firstUniqueLoop_eq, hnone]

/-- The amended C21 at concrete inputs: the string of the byte 233 and two
letters `a`, indexed out of bounds by the byte 233, and the string `aa` without
a non-repeated character. -/
theorem findFirstNonRepeatedCharacter_spec_witness :
    IsByteString [Char.ofNat 233, 'a', 'a'] ∧
    firstNonRepeated [Char.ofNat 233, 'a', 'a'] = some (Char.ofNat 233) ∧
    findFirstNonRepeatedCharacter [Char.ofNat 233, 'a', 'a'] = none ∧
    (∀ c ∈ ['a', 'a'], ['a', 'a'].count c ≠ 1) ∧
    findFirstNonRepeatedCharacter ['a', 'a'] = some (Char.ofNat 0) :=
  ⟨by decide, by decide,
    (findFirstNonRepeatedCharacter_spec.1 [Char.ofNat 233, 'a', 'a'] (Char.ofNat 233)
      (by decide) (by decide)).2.2.2 (Or.inr (by decide)),
    by decide, findFirstNonRepeatedCharacter_spec.2.2 ['a', 'a'] (by decide)⟩

end Exercises

namespace AVLTree

section OrderLemmas

variable {T : Type}

theorem inorder_withHeight (v : T) (l r : AVLNode T) :
    inorder (withHeight v l r) = inorder l ++ v :: inorder r := rfl

theorem inorder_rotateLeft {n t : AVLNode T} (h : rotateLeft n = some t) :
    inorder t = inorder n := by
  cases n with
  | null => simp [rotateLeft] at h
  | node v ht l r =>
    cases r with
    | null => simp [rotateLeft] at h
    | node rv rh rl rr =>
      simp only [rotateLeft, Option.some.injEq] at h
      subst h
      simp [inorder, withHeight]

theorem inorder_rotateRight {n t : AVLNode T} (h : rotateRight n = some t) :
    inorder t = inorder n := by
  cases n with
  | null => simp [rotateRight] at h
  | node v ht l r =>
    cases l with
    | null => simp [rotateRight] at h
    | node lv lh ll lr =>
      simp only [rotateRight, Option.some.injEq] at h
      subst h
      simp [inorder, withHeight]

theorem inorder_balance {n t : AVLNode T} (h : balance n = some t) :
    inorder t = inorder n := by
  cases n with
  | null => simp [balance] at h
  | node v ht l r =>
    simp only [balance] at h
    split at h
    · split at h
      · exact Option.noConfusion h
      · split at h
        · split at h
          · exact Option.noConfusion h
          · rename_i newLeft hrot
            rw [inorder_rotateRight h]
            simp only [inorder, inorder_rotateLeft hrot]
        · exact inorder_rotateRight h
    · split at h
      · split at h
        · exact Option.noConfusion h
        · split at h
          · split at h
            · exact Option.noConfusion h
            · rename_i newRight hrot
              rw [inorder_rotateLeft h]
              simp only [inorder, inorder_rotateRight hrot]
          · exact inorder_rotateLeft h
      · rw [← Option.some.inj h]

variable [LinearOrder T]

theorem sorted_append_cons {l r : List T} {v : T} :
    (l ++ v :: r).Sorted (fun a b => a ≤ b) ↔
      l.Sorted (fun a b => a ≤ b) ∧ r.Sorted (fun a b => a ≤ b) ∧
        (∀ a ∈ l, a ≤ v) ∧ (∀ b ∈ r, v ≤ b) := by
  unfold List.Sorted
  rw [List.pairwise_append, List.pairwise_cons]
  constructor
  · rintro ⟨h1, ⟨h2, h3⟩, h4⟩
    exact ⟨h1, h3, fun a ha => h4 a ha v (List.mem_cons_self _ _), h2⟩
  · rintro ⟨h1, h2, h3, h4⟩
    refine ⟨h1, ⟨h4, h2⟩, fun a ha b hb => ?_⟩
    rcases List.mem_cons.mp hb with rfl | hb
    · exact h3 a ha
    · exact le_trans (h3 a ha) (h4 b hb)

theorem insertNode_inorder (t : AVLNode T) (item : T) {t' : AVLNode T}
    (h : insertNode t item = some t') :
    List.Perm (inorder t') (item :: inorder t) ∧
    ((inorder t).Sorted (fun a b => a ≤ b) → (inorder t').Sorted (fun a b => a ≤ b)) := by
  induction t generalizing t' with
  | null =>
    simp only [insertNode, Option.some.injEq] at h
    subst h
    simp [newNode, inorder]
  | node v ht l r ihl ihr =>
    simp only [insertNode] at h
    split at h
    · rename_i hlt
      split at h
      · exact Option.noConfusion h
      · rename_i newLeft hins
        obtain ⟨hp, hs⟩ := ihl hins
        rw [inorder_balance h, inorder_withHeight]
        refine ⟨?_, fun hsorted => ?_⟩
        · simp only [inorder]
          exact (hp.append_right _).trans (by simp)
        · simp only [inorder] at hsorted
          obtain ⟨s1, s2, s3, s4⟩ := sorted_append_cons.mp hsorted
          refine sorted_append_cons.mpr ⟨hs s1, s2, fun a ha => ?_, s4⟩
          rcases List.mem_cons.mp (hp.mem_iff.mp ha) with rfl | ha
          · exact le_of_lt hlt
          · exact s3 a ha
    · rename_i hlt
      split at h
      · exact Option.noConfusion h
      · rename_i newRight hins
        obtain ⟨hp, hs⟩ := ihr hins
        rw [inorder_balance h, inorder_withHeight]
        refine ⟨?_, fun hsorted => ?_⟩
        · simp only [inorder]
          have : List.Perm (v :: inorder newRight) (item :: v :: inorder r) :=
            (hp.cons v).trans (List.Perm.swap _ _ _)
          exact (this.append_left (inorder l)).trans List.perm_middle
        · simp only [inorder] at hsorted
          obtain ⟨s1, s2, s3, s4⟩ := sorted_append_cons.mp hsorted
          refine sorted_append_cons.mpr ⟨s1, hs s2, s3, fun b hb => ?_⟩
          rcases List.mem_cons.mp (hp.mem_iff.mp hb) with rfl | hb
          · exact not_lt.mp hlt
          · exact s4 b hb

theorem insertAll_inorder (items : List T) {t t' : AVLTree T}
    (h : insertAll t items = some t') :
    List.Perm (inorder t'.root) (items.reverse ++ inorder t.root) ∧
    ((inorder t.root).Sorted (fun a b => a ≤ b) →
      (inorder t'.root).Sorted (fun a b => a ≤ b)) ∧
    size t' = size t + items.length := by
  induction items generalizing t with
  | nil =>
    simp only [insertAll, Option.some.injEq] at h
    subst h
    simp
  | cons a rest ih =>
    simp only [insertAll, insert] at h
    split at h
    · exact Option.noConfusion h
    · rename_i t1 hins
      split at hins
      · exact Option.noConfusion hins
      · rename_i newRoot hnode
        have ht1 := Option.some.inj hins
        subst ht1
        obtain ⟨hp, hs⟩ := insertNode_inorder t.root a hnode
        obtain ⟨ip, is, isz⟩ := ih h
        refine ⟨?_, fun hsorted => is (hs hsorted), ?_⟩
        · refine ip.trans ?_
          simp only [List.reverse_cons, List.append_assoc, List.singleton_append]
          exact hp.append_left _
        · rw [isz]
          simp only [size, List.length_cons]
          omega

end OrderLemmas

variable {T : Type} [LinearOrder T]

/-- C23: every finite sequence of `insert` calls on an initially empty tree runs
to completion; the in-order traversal of the resulting tree is sorted in
non-decreasing order and is a permutation of the inserted items, and `size()`
equals the number of `insert` calls. -/
theorem insertAll_sorted_perm_size (items : List T) :
    ∃ t : AVLTree T, insertAll empty items = some t ∧
      (inorder t.root).Sorted (fun a b => a ≤ b) ∧
      List.Perm (inorder t.root) items ∧ size t = items.length := by
  obtain ⟨t, e, -, -⟩ := insertAll_spec items (empty : AVLTree T) trivial trivial
  obtain ⟨hp, hs, hsz⟩ := insertAll_inorder items e
  refine ⟨t, e, hs (by simp [empty, inorder]), ?_, ?_⟩
  · have : List.Perm (inorder t.root) items.reverse := by
      simpa [empty, inorder] using hp
    exact this.trans (List.reverse_perm items)
  · simpa [empty, size] using hsz

end AVLTree
